import Mathlib

/-!
Verification development for the `http_client` library: a shallow embedding of
the request-execution pipeline and its safety fabric (token-bucket rate
limiter, domain rate limiter, cookie store, proxy pool, retry engine, batch
executor, client request flow), together with theorems settling the stated
behavioural properties.

Conventions of the embedding:
* Monotonic/wall-clock times and fractional token counts are rationals (`ℚ`);
  every operation that reads the clock in the source takes the current time
  `now` as an explicit argument.
* Python `dict`s are association lists with dict insertion semantics
  (update-in-place keeps the position, new keys are appended), preserving the
  source's iteration order.
* Fallible operations return `Except`.
* The `random` proxy-pool strategy takes the random draw as an explicit
  argument (it is unused by the claims, which concern `round_robin`).
-/

namespace HttpClient

/-- Association-list lookup: first binding wins (Python `dict` access on a list
whose keys are unique by construction). -/
def lookupAssoc {κ α : Type} [DecidableEq κ] (l : List (κ × α)) (k : κ) : Option α :=
  match l with
  | [] => none
  | (k', v) :: rest => if k' = k then some v else lookupAssoc rest k

/-- Python `dict` assignment `d[k] = v`: replaces the value in place when the
key exists (keeping its position), otherwise appends the new binding. -/
def dictInsert {κ α : Type} [DecidableEq κ] (l : List (κ × α)) (k : κ) (v : α) :
    List (κ × α) :=
  match l with
  | [] => [(k, v)]
  | (k', v') :: rest =>
      if k' = k then (k, v) :: rest else (k', v') :: dictInsert rest k v

theorem lookupAssoc_dictInsert {κ α : Type} [DecidableEq κ] (l : List (κ × α))
    (k k' : κ) (v : α) :
    lookupAssoc (dictInsert l k v) k' = if k' = k then some v else lookupAssoc l k' := by
  induction l with
  | nil =>
      by_cases h : k' = k
      · simp [dictInsert, lookupAssoc, h]
      · have h' : ¬ k = k' := fun hh => h hh.symm
        simp [dictInsert, lookupAssoc, h, h']
  | cons hd tl ih =>
      obtain ⟨k₀, v₀⟩ := hd
      by_cases h0 : k₀ = k
      · by_cases h1 : k' = k
        · simp [dictInsert, lookupAssoc, h0, h1]
        · have h1' : ¬ k = k' := fun hh => h1 hh.symm
          simp [dictInsert, lookupAssoc, h0, h1, h1']
      · by_cases h1 : k₀ = k'
        · have : ¬ k' = k := fun h => h0 (h1.trans h)
          simp [dictInsert, lookupAssoc, h0, h1, this]
        · simp [dictInsert, lookupAssoc, h0, h1, ih]

theorem lookupAssoc_append_single {κ α : Type} [DecidableEq κ] (l : List (κ × α))
    (k : κ) (v : α) (h : lookupAssoc l k = none) :
    lookupAssoc (l ++ [(k, v)]) k = some v := by
  induction l with
  | nil => simp [lookupAssoc]
  | cons hd tl ih =>
      obtain ⟨k₀, v₀⟩ := hd
      by_cases h0 : k₀ = k
      · simp [lookupAssoc, h0] at h
      · simp [lookupAssoc, h0] at h ⊢
        exact ih h

/-! ## Token bucket (`safety/rate_limiter.py`, class `TokenBucket`) -/

/-- State of `TokenBucket`: refill rate (tokens/second), burst capacity,
current (fractional) token count and the monotonic timestamp of the last
refill. -/
structure TokenBucket where
  rate : ℚ
  capacity : ℚ
  tokens : ℚ
  lastUpdate : ℚ
  deriving Repr, DecidableEq

/-- `TokenBucket.__init__`: capacity defaults to the rate, the bucket starts
full, and `last_update` is the current monotonic time. -/
def mkTokenBucket (rate : ℚ) (capacity : Option ℚ) (now : ℚ) : TokenBucket :=
  let cap := capacity.getD rate
  { rate := rate, capacity := cap, tokens := cap, lastUpdate := now }

namespace TokenBucket

/-- `TokenBucket._refill`: add `(now - last_update) * rate` tokens, clamped to
the capacity, and stamp `last_update`. -/
def refill (now : ℚ) (b : TokenBucket) : TokenBucket :=
  { b with
    tokens := min b.capacity (b.tokens + (now - b.lastUpdate) * b.rate)
    lastUpdate := now }

/-- `TokenBucket._calculate_wait_time`: time until one token is available. -/
def calculateWaitTime (b : TokenBucket) : ℚ :=
  if 1 ≤ b.tokens then 0 else (1 - b.tokens) / b.rate

/-- `TokenBucket.acquire_sync`.  The call starts at monotonic time `now`; when
the blocking path sleeps, the sleep lasts the computed wait time plus a
nonnegative scheduling `slack`, after which the bucket is refilled and one
token is consumed unconditionally (as in the source). -/
def acquireSync (blocking : Bool) (now slack : ℚ) (b : TokenBucket) :
    Bool × TokenBucket :=
  let b1 := refill now b
  if 1 ≤ b1.tokens then
    (true, { b1 with tokens := b1.tokens - 1 })
  else if !blocking then
    (false, b1)
  else
    let wait := calculateWaitTime b1
    let b2 := refill (now + wait + slack) b1
    (true, { b2 with tokens := b2.tokens - 1 })

end TokenBucket

/-- One `acquire_sync` call of a trace: blocking flag, the monotonic time at
which the call starts, and the extra (nonnegative) time the sleep overshoots
the computed wait. -/
structure AcquireOp where
  blocking : Bool
  now : ℚ
  slack : ℚ
  deriving Repr, DecidableEq

/-- Run a sequence of `acquire_sync` calls, discarding the returned booleans. -/
def runAcquires (ops : List AcquireOp) (b : TokenBucket) : TokenBucket :=
  match ops with
  | [] => b
  | op :: rest => runAcquires rest (TokenBucket.acquireSync op.blocking op.now op.slack b).2

/-- A trace is well formed when every call starts no earlier than the bucket's
`last_update` (the clock is monotonic) and sleeps cannot end early. -/
def wfTrace (b : TokenBucket) (ops : List AcquireOp) : Bool :=
  match ops with
  | [] => true
  | op :: rest =>
      decide (b.lastUpdate ≤ op.now) && decide (0 ≤ op.slack) &&
        wfTrace (TokenBucket.acquireSync op.blocking op.now op.slack b).2 rest

theorem acquireSync_preserves (blocking : Bool) (now slack : ℚ) (b : TokenBucket) :
    (TokenBucket.acquireSync blocking now slack b).2.capacity = b.capacity ∧
      (TokenBucket.acquireSync blocking now slack b).2.rate = b.rate := by
  simp only [TokenBucket.acquireSync, TokenBucket.refill, TokenBucket.calculateWaitTime]
  split_ifs <;> simp

theorem acquireSync_step_bounds (blocking : Bool) (now slack : ℚ) (b : TokenBucket)
    (hc : 1 ≤ b.capacity) (hr : 0 < b.rate) (h0 : 0 ≤ b.tokens)
    (ht : b.lastUpdate ≤ now) (hs : 0 ≤ slack) :
    0 ≤ (TokenBucket.acquireSync blocking now slack b).2.tokens ∧
      (TokenBucket.acquireSync blocking now slack b).2.tokens ≤ b.capacity := by
  have hcap0 : (0:ℚ) ≤ b.capacity := le_trans (by norm_num) hc
  have hfill0 : 0 ≤ b.tokens + (now - b.lastUpdate) * b.rate := by
    have : 0 ≤ (now - b.lastUpdate) * b.rate :=
      mul_nonneg (by linarith) (le_of_lt hr)
    linarith
  simp only [TokenBucket.acquireSync, TokenBucket.refill, TokenBucket.calculateWaitTime]
  set t1 : ℚ := min b.capacity (b.tokens + (now - b.lastUpdate) * b.rate) with ht1
  have ht1u : t1 ≤ b.capacity := min_le_left _ _
  have ht1l : 0 ≤ t1 := le_min hcap0 hfill0
  split_ifs with h1 h2
  · constructor
    · simpa using sub_nonneg.mpr h1
    · dsimp only
      linarith
  · exact ⟨ht1l, ht1u⟩
  · -- blocking path: sleep `(1 - t1) / rate + slack`, refill, consume
    have hlt : t1 < 1 := lt_of_not_le h1
    have hwait : ¬ (1 : ℚ) ≤ t1 := h1
    simp only [hwait, if_false]
    have hrne : b.rate ≠ 0 := ne_of_gt hr
    have hmul : (1 - t1) / b.rate * b.rate = 1 - t1 := div_mul_cancel₀ _ hrne
    have hkey : t1 + (now + (1 - t1) / b.rate + slack - now) * b.rate = 1 + slack * b.rate := by
      have : (now + (1 - t1) / b.rate + slack - now) = (1 - t1) / b.rate + slack := by ring
      rw [this, add_mul, hmul]
      ring
    have hinner : (1:ℚ) ≤ t1 + (now + (1 - t1) / b.rate + slack - now) * b.rate := by
      rw [hkey]
      have : 0 ≤ slack * b.rate := mul_nonneg hs (le_of_lt hr)
      linarith
    have hmin1 : (1:ℚ) ≤ min b.capacity (t1 + (now + (1 - t1) / b.rate + slack - now) * b.rate) :=
      le_min hc hinner
    have hminu : min b.capacity (t1 + (now + (1 - t1) / b.rate + slack - now) * b.rate) ≤ b.capacity :=
      min_le_left _ _
    constructor
    · dsimp only
      linarith
    · dsimp only
      linarith

theorem runAcquires_bounds : ∀ (ops : List AcquireOp) (b : TokenBucket),
    1 ≤ b.capacity → 0 < b.rate → 0 ≤ b.tokens → b.tokens ≤ b.capacity →
    wfTrace b ops = true →
    (0 ≤ (runAcquires ops b).tokens ∧ (runAcquires ops b).tokens ≤ b.capacity) := by
  intro ops
  induction ops with
  | nil =>
      intro b _ _ h0 h1 _
      exact ⟨h0, h1⟩
  | cons op rest ih =>
      intro b hc hr h0 _ hwf
      simp only [wfTrace, Bool.and_eq_true, decide_eq_true_eq] at hwf
      obtain ⟨⟨htime, hslack⟩, hwf'⟩ := hwf
      have hstep := acquireSync_step_bounds op.blocking op.now op.slack b hc hr h0 htime hslack
      have hpres := acquireSync_preserves op.blocking op.now op.slack b
      have := ih (TokenBucket.acquireSync op.blocking op.now op.slack b).2
        (hpres.1 ▸ hc) (hpres.2 ▸ hr) hstep.1 (hpres.1 ▸ hstep.2) hwf'
      simp only [runAcquires]
      exact ⟨this.1, by rw [← hpres.1]; exact this.2⟩

/-- C4, counterexample: with rate `r = 1/2 > 0` (capacity defaulting to the
rate, hence `c = 1/2 < 1`), the single-element well-formed sequence consisting
of one blocking acquire at time `0` with no sleep overshoot drives the token
count to `-1/2 < 0`: the invariant `0 ≤ tokens` claimed for every rate and
capacity fails. -/
theorem tokenBucket_claim_counterexample :
    (0:ℚ) < 1/2 ∧
    wfTrace (mkTokenBucket (1/2) none 0) [⟨true, 0, 0⟩] = true ∧
    (runAcquires [⟨true, 0, 0⟩] (mkTokenBucket (1/2) none 0)).tokens < 0 := by
  refine ⟨by norm_num, ?_, ?_⟩ <;>
    norm_num [wfTrace, runAcquires, mkTokenBucket, TokenBucket.acquireSync,
      TokenBucket.refill, TokenBucket.calculateWaitTime]

/-- C4 (amended): for every rate `r > 0` and capacity `c ≥ 1`, and every
well-formed sequence of acquire operations (blocking or non-blocking, at
arbitrary monotonically nondecreasing times), the token count stays within
`0 ≤ tokens ≤ c`; and every refill adds `(now − last) × r` tokens clamped so
the count never exceeds the capacity.  (For `c < 1` a blocking acquire drives
the count negative, as the counterexample shows.) -/
theorem tokenBucket_invariant (b : TokenBucket) (ops : List AcquireOp)
    (hc : 1 ≤ b.capacity) (hr : 0 < b.rate) (h0 : 0 ≤ b.tokens)
    (h1 : b.tokens ≤ b.capacity) (hwf : wfTrace b ops = true) :
    (0 ≤ (runAcquires ops b).tokens ∧ (runAcquires ops b).tokens ≤ b.capacity) ∧
      ∀ (now : ℚ) (b' : TokenBucket),
        (TokenBucket.refill now b').tokens =
          min b'.capacity (b'.tokens + (now - b'.lastUpdate) * b'.rate) :=
  ⟨runAcquires_bounds ops b hc hr h0 h1 hwf, fun _ _ => rfl⟩

/-- Witness for `tokenBucket_invariant`: a concrete bucket of rate 2 and a
concrete two-element trace satisfying all hypotheses. -/
theorem tokenBucket_invariant_witness :
    (0 ≤ (runAcquires [⟨true, 0, 0⟩, ⟨false, 1, 0⟩] (mkTokenBucket 2 none 0)).tokens ∧
      (runAcquires [⟨true, 0, 0⟩, ⟨false, 1, 0⟩] (mkTokenBucket 2 none 0)).tokens ≤
        (mkTokenBucket 2 none 0).capacity) ∧
      ∀ (now : ℚ) (b' : TokenBucket),
        (TokenBucket.refill now b').tokens =
          min b'.capacity (b'.tokens + (now - b'.lastUpdate) * b'.rate) :=
  tokenBucket_invariant (mkTokenBucket 2 none 0) [⟨true, 0, 0⟩, ⟨false, 1, 0⟩]
    (by norm_num [mkTokenBucket]) (by norm_num [mkTokenBucket])
    (by norm_num [mkTokenBucket]) (by norm_num [mkTokenBucket])
    (by norm_num [wfTrace, mkTokenBucket, TokenBucket.acquireSync,
      TokenBucket.refill, TokenBucket.calculateWaitTime])

/-! ## URL parsing

Model of the parts of `urllib.parse.urlparse` the library uses: scheme,
netloc (the authority between `//` and the next `/`, `?` or `#`), path, and
`hostname` (userinfo and port stripped, lowercased; IPv6 bracket syntax is out
of scope of this model). -/

/-- ASCII lowercasing, as Python's `str.lower` on the ASCII strings the
library handles (defined over the character list so it evaluates in the
kernel). -/
def strLower (s : String) : String :=
  ⟨s.toList.map Char.toLower⟩

/-- Characters allowed in a URL scheme after the initial letter. -/
def isSchemeChar (c : Char) : Bool :=
  c.isAlphanum || c == '+' || c == '-' || c == '.'

/-- Split `url` into scheme and remainder at the first `:` when the part
before it is a well-formed scheme, as `urlparse` does. -/
def schemeSplit (url : String) : Option (String × String) :=
  let cs := url.toList
  let pre := cs.takeWhile (fun c => c != ':')
  match cs.drop pre.length with
  | ':' :: after =>
      match pre with
      | [] => none
      | c :: _ =>
          if c.isAlpha && pre.all isSchemeChar then some (⟨pre⟩, ⟨after⟩)
          else none
  | _ => none

/-- `urlparse(url).scheme` (lowercased by `urlparse`). -/
def schemeOf (url : String) : String :=
  match schemeSplit url with
  | some (s, _) => strLower s
  | none => ""

/-- The URL with its scheme and `:` removed (or the URL itself without one). -/
def restAfterScheme (url : String) : String :=
  match schemeSplit url with
  | some (_, r) => r
  | none => url

/-- `urlparse(url).netloc`: the authority component, present only when `//`
follows the scheme, running up to the next `/`, `?` or `#`.  It includes
userinfo and any explicit port. -/
def netlocOf (url : String) : String :=
  match (restAfterScheme url).toList with
  | '/' :: '/' :: tail => ⟨tail.takeWhile (fun c => c != '/' && c != '?' && c != '#')⟩
  | _ => ""

/-- `urlparse(url).path`: what follows the authority, up to `?` or `#`. -/
def pathOf (url : String) : String :=
  let rest := (restAfterScheme url).toList
  let afterNetloc :=
    match rest with
    | '/' :: '/' :: tail => tail.dropWhile (fun c => c != '/' && c != '?' && c != '#')
    | _ => rest
  ⟨afterNetloc.takeWhile (fun c => c != '?' && c != '#')⟩

/-- `urlparse(url).hostname` for a netloc: the part after the last `@` and
before the first `:`, lowercased. -/
def hostnameOf (netloc : String) : String :=
  let afterAt := (netloc.toList.reverse.takeWhile (fun c => c != '@')).reverse
  strLower ⟨afterAt.takeWhile (fun c => c != ':')⟩

/-! ## Domain rate limiter (`safety/rate_limiter.py`, class `DomainRateLimiter`) -/

/-- State of `DomainRateLimiter`: default per-domain rate, per-domain
overrides, optional global rate, the lazily materialized per-domain buckets
(in creation order, as in the backing `dict`), and the optional global
bucket. -/
structure DomainRateLimiter where
  defaultRate : ℚ
  domainRates : List (String × ℚ)
  globalRate : Option ℚ
  buckets : List (String × TokenBucket)
  globalBucket : Option TokenBucket
  deriving Repr, DecidableEq

/-- `DomainRateLimiter.__init__`. -/
def mkDomainRateLimiter (defaultRate : ℚ) (domainRates : List (String × ℚ))
    (globalRate : Option ℚ) (now : ℚ) : DomainRateLimiter :=
  { defaultRate := defaultRate
    domainRates := domainRates
    globalRate := globalRate
    buckets := []
    globalBucket :=
      match globalRate with
      | some g => if 0 < g then some (mkTokenBucket g none now) else none
      | none => none }

/-- `DomainRateLimiter._get_domain`: the URL's netloc, lowercased. -/
def getDomain (url : String) : String :=
  strLower (netlocOf url)

/-- `DomainRateLimiter._get_bucket`: `None` when the effective rate disables
limiting; otherwise the existing bucket for the domain, or a fresh one
appended to the map. -/
def getBucket (domain : String) (now : ℚ) (s : DomainRateLimiter) :
    Option TokenBucket × DomainRateLimiter :=
  let rate := (lookupAssoc s.domainRates domain).getD s.defaultRate
  if rate ≤ 0 then (none, s)
  else
    match lookupAssoc s.buckets domain with
    | some b => (some b, s)
    | none =>
        let b := mkTokenBucket rate none now
        (some b, { s with buckets := s.buckets ++ [(domain, b)] })

/-- C8, counterexample: `_get_domain` keeps the explicit port, so
`http://example.com/a` and `http://example.com:80/a` — two URLs differing
only in an explicit port — use different bucket keys, and acquiring for both
materializes two distinct buckets rather than sharing one. -/
theorem domainLimiter_claim_counterexample :
    getDomain "http://example.com/a" = "example.com" ∧
    getDomain "http://example.com:80/a" = "example.com:80" ∧
    getDomain "http://example.com/a" ≠ getDomain "http://example.com:80/a" ∧
    ((getBucket (getDomain "http://example.com:80/a") 0
        (getBucket (getDomain "http://example.com/a") 0
          (mkDomainRateLimiter 1 [] none 0)).2).2).buckets.length = 2 := by
  refine ⟨?_, ?_, ?_, ?_⟩ <;> decide

/-- C8 (amended): the domain rate limiter keys its buckets by the URL's
netloc — host plus any explicit port — lowercased (the port is not removed).
Consequently two URLs whose netlocs differ only in letter case use the same
key and acquire from the same bucket: after the first URL's bucket lookup,
the lookup for the second returns the very same bucket without creating a new
one.  URLs differing in an explicit port use different keys (see the
counterexample). -/
theorem domainLimiter_bucket_keying (u1 u2 : String) (s : DomainRateLimiter) (now : ℚ)
    (hcase : strLower (netlocOf u1) = strLower (netlocOf u2)) :
    (∀ url, getDomain url = strLower (netlocOf url)) ∧
    getDomain u1 = getDomain u2 ∧
    getBucket (getDomain u2) now (getBucket (getDomain u1) now s).2 =
      ((getBucket (getDomain u1) now s).1, (getBucket (getDomain u1) now s).2) := by
  have hdom : getDomain u1 = getDomain u2 := hcase
  refine ⟨fun _ => rfl, hdom, ?_⟩
  rw [← hdom]
  simp only [getBucket]
  by_cases hrate : (lookupAssoc s.domainRates (getDomain u1)).getD s.defaultRate ≤ 0
  · simp [hrate]
  · simp only [hrate, if_false]
    cases hfind : lookupAssoc s.buckets (getDomain u1) with
    | some b => simp [hfind, hrate]
    | none =>
        simp only [hfind]
        have hlook := lookupAssoc_append_single s.buckets (getDomain u1)
          (mkTokenBucket ((lookupAssoc s.domainRates (getDomain u1)).getD s.defaultRate)
            none now) hfind
        simp [hlook, hrate]

/-- Witness for `domainLimiter_bucket_keying`: two concrete URLs whose hosts
differ only in letter case. -/
theorem domainLimiter_bucket_keying_witness :
    (∀ url, getDomain url = strLower (netlocOf url)) ∧
    getDomain "http://EXample.com/a" = getDomain "http://example.COM/b" ∧
    getBucket (getDomain "http://example.COM/b") 0
        (getBucket (getDomain "http://EXample.com/a") 0
          (mkDomainRateLimiter 1 [] none 0)).2 =
      ((getBucket (getDomain "http://EXample.com/a") 0 (mkDomainRateLimiter 1 [] none 0)).1,
        (getBucket (getDomain "http://EXample.com/a") 0 (mkDomainRateLimiter 1 [] none 0)).2) :=
  domainLimiter_bucket_keying "http://EXample.com/a" "http://example.COM/b"
    (mkDomainRateLimiter 1 [] none 0) 0 (by decide)

/-! ## Cookie store (`safety/cookie_store.py`) -/

/-- `startsWithL p s`: `s` begins with `p` (char-list core of Python's
`str.startswith`, kernel-evaluable). -/
def startsWithL (p s : List Char) : Bool :=
  match p, s with
  | [], _ => true
  | _ :: _, [] => false
  | a :: p', b :: s' => a == b && startsWithL p' s'

/-- Python `s.startswith(p)`. -/
def strStartsWith (s p : String) : Bool :=
  startsWithL p.toList s.toList

/-- Python `s.endswith(p)`. -/
def strEndsWith (s p : String) : Bool :=
  startsWithL p.toList.reverse s.toList.reverse

/-- `Cookie` (`safety/cookie_store.py`): name, value, domain, path, optional
absolute expiry time, secure and http-only flags. -/
structure Cookie where
  name : String
  value : String
  domain : String
  path : String
  expires : Option ℚ
  secure : Bool
  httpOnly : Bool
  deriving Repr, DecidableEq

namespace Cookie

/-- `Cookie.is_expired`: `time.time() > expires` (session cookies never
expire). -/
def isExpired (now : ℚ) (c : Cookie) : Bool :=
  match c.expires with
  | none => false
  | some t => decide (t < now)

/-- `Cookie.matches_domain`: exact match, leading-dot suffix match, or
subdomain match, on lowercased strings. -/
def matchesDomain (c : Cookie) (domain : String) : Bool :=
  let d := strLower domain
  let cd := strLower c.domain
  if d == cd then true
  else if strStartsWith cd "." then
    strEndsWith d cd || d == (⟨cd.toList.drop 1⟩ : String)
  else strEndsWith d ("." ++ cd)

/-- `Cookie.matches_path`: the root path matches everything, otherwise the
request path must start with the cookie path. -/
def matchesPath (c : Cookie) (path : String) : Bool :=
  if c.path == "/" then true else strStartsWith path c.path

end Cookie

/-- `CookieStore._cookies`: domain key → (name → cookie), both levels with
dict iteration order. -/
abbrev CookieStore := List (String × List (String × Cookie))

/-- `CookieStore._normalize_domain`: lowercase, strip one leading dot. -/
def normalizeDomain (domain : String) : String :=
  let d := strLower domain
  if strStartsWith d "." then ⟨d.toList.drop 1⟩ else d

/-- `CookieStore.set`. -/
def cookieStoreSet (name value domain path : String) (expires : Option ℚ)
    (secure httpOnly : Bool) (st : CookieStore) : CookieStore :=
  let c : Cookie := ⟨name, value, domain, path, expires, secure, httpOnly⟩
  let key := normalizeDomain domain
  let inner := (lookupAssoc st key).getD []
  dictInsert st key (dictInsert inner name c)

/-- `CookieStore._cleanup_expired`: drop expired cookies and then empty
domain buckets, keeping iteration order. -/
def cleanupExpired (now : ℚ) (st : CookieStore) : CookieStore :=
  (st.map (fun dc => (dc.1, dc.2.filter (fun nc => !(nc.2.isExpired now))))).filter
    (fun dc => !dc.2.isEmpty)

/-- Inner loop of `CookieStore.get_for_url`: walk one domain bucket,
accumulating name → value for every cookie passing the expiry, domain, path
and secure checks. -/
def buildInner (now : ℚ) (domain epath : String) (isSecure : Bool)
    (acc : List (String × String)) (cs : List (String × Cookie)) :
    List (String × String) :=
  match cs with
  | [] => acc
  | (n, c) :: rest =>
      let acc' :=
        if c.isExpired now then acc
        else if !(c.matchesDomain domain) then acc
        else if !(c.matchesPath epath) then acc
        else if c.secure && !isSecure then acc
        else dictInsert acc n c.value
      buildInner now domain epath isSecure acc' rest

/-- Outer loop of `CookieStore.get_for_url` over the domain buckets. -/
def buildOuter (now : ℚ) (domain epath : String) (isSecure : Bool)
    (acc : List (String × String)) (st : CookieStore) : List (String × String) :=
  match st with
  | [] => acc
  | dc :: rest =>
      buildOuter now domain epath isSecure
        (buildInner now domain epath isSecure acc dc.2) rest

/-- `CookieStore.get_for_url` on already-parsed URL components: sweep expired
cookies, then collect the applicable name → value pairs.  Returns the result
together with the swept store (the sweep is the lookup's only mutation). -/
def getForUrlParts (now : ℚ) (scheme netloc path : String) (st : CookieStore) :
    List (String × String) × CookieStore :=
  let domain := strLower netloc
  let epath := if path == "" then "/" else path
  let isSecure := strLower scheme == "https"
  let st' := cleanupExpired now st
  (buildOuter now domain epath isSecure [] st', st')

/-- `CookieStore.get_for_url` on a URL string (`urlparse` components). -/
def getForUrl (now : ℚ) (url : String) (st : CookieStore) :
    List (String × String) × CookieStore :=
  getForUrlParts now (schemeOf url) (netlocOf url) (pathOf url) st

/-- `CookieStore.update_from_response`: store every response cookie under the
domain inferred from the request URL (netloc, lowercased), with default path
`/`, no expiry and cleared flags. -/
def updateFromResponse (url : String) (cookies : List (String × String))
    (st : CookieStore) : CookieStore :=
  let domain := strLower (netlocOf url)
  let inner0 := (lookupAssoc st domain).getD []
  let inner := cookies.foldl
    (fun acc nv => dictInsert acc nv.1 ⟨nv.1, nv.2, domain, "/", none, false, false⟩)
    inner0
  dictInsert st domain inner

/-- Membership of a cookie in the store (under its own name). -/
def storeMem (c : Cookie) (st : CookieStore) : Bool :=
  st.any (fun dc => dc.2.any (fun nc => nc.1 == c.name && nc.2 == c))

/-- Well-formedness maintained by all store operations: every inner binding
is keyed by its cookie's name. -/
def storeWF (st : CookieStore) : Bool :=
  st.all (fun dc => dc.2.all (fun nc => nc.1 == nc.2.name))

/-- All cookie names stored, in iteration order. -/
def allNames (st : CookieStore) : List String :=
  st.flatMap (fun dc => dc.2.map Prod.fst)

/-- C2, counterexample: the result of `get_for_url` is a name-keyed dict, so
a matching cookie can be shadowed by a later matching cookie of the same
name.  Cookie `("n", "v1", domain "a.com")` is stored and satisfies every
condition of the claim for `http://a.com/` (unexpired, exact domain match,
path match, not secure), yet `get_for_url` maps `"n"` to `"v2"`, the value of
the also-matching cookie `("n", "v2", domain "com")` (a suffix domain match)
iterated later, so the claimed iff fails in the `if` direction. -/
theorem cookie_claim_counterexample :
    (storeMem ⟨"n", "v1", "a.com", "/", none, false, false⟩
      (cookieStoreSet "n" "v2" "com" "/" none false false
        (cookieStoreSet "n" "v1" "a.com" "/" none false false [])) = true) ∧
    Cookie.isExpired 0 ⟨"n", "v1", "a.com", "/", none, false, false⟩ = false ∧
    Cookie.matchesDomain ⟨"n", "v1", "a.com", "/", none, false, false⟩ "a.com" = true ∧
    strStartsWith (pathOf "http://a.com/") "/" = true ∧
    (⟨"n", "v1", "a.com", "/", none, false, false⟩ : Cookie).secure = false ∧
    lookupAssoc
        (getForUrl 0 "http://a.com/"
          (cookieStoreSet "n" "v2" "com" "/" none false false
            (cookieStoreSet "n" "v1" "a.com" "/" none false false []))).1 "n" ≠
      some "v1" := by
  refine ⟨?_, ?_, ?_, ?_, ?_, ?_⟩ <;> decide

/-- The four filters of the `get_for_url` loop, combined. -/
def passes (now : ℚ) (domain epath : String) (isSecure : Bool) (c : Cookie) : Bool :=
  !(c.isExpired now) && c.matchesDomain domain && c.matchesPath epath &&
    !(c.secure && !isSecure)

theorem lookupAssoc_dictInsert_ne {κ α : Type} [DecidableEq κ] (l : List (κ × α))
    (k n : κ) (v : α) (h : n ≠ k) :
    lookupAssoc (dictInsert l k v) n = lookupAssoc l n := by
  rw [lookupAssoc_dictInsert]
  simp [h]

theorem buildInner_lookup_notNamed (now : ℚ) (domain epath : String) (isSecure : Bool)
    (cs : List (String × Cookie)) (acc : List (String × String)) (n : String)
    (h : ∀ p ∈ cs, p.1 ≠ n) :
    lookupAssoc (buildInner now domain epath isSecure acc cs) n = lookupAssoc acc n := by
  induction cs generalizing acc with
  | nil => rfl
  | cons hd tl ih =>
      obtain ⟨m, c⟩ := hd
      have hm : n ≠ m := fun hh => h (m, c) (List.mem_cons_self _ _) hh.symm
      have htl : ∀ p ∈ tl, p.1 ≠ n := fun p hp => h p (List.mem_cons_of_mem _ hp)
      simp only [buildInner]
      rw [ih _ htl]
      split_ifs <;> first
        | rfl
        | exact lookupAssoc_dictInsert_ne _ _ _ _ hm

theorem buildOuter_lookup_notNamed (now : ℚ) (domain epath : String) (isSecure : Bool)
    (st : CookieStore) (acc : List (String × String)) (n : String)
    (h : ∀ dc ∈ st, ∀ p ∈ dc.2, p.1 ≠ n) :
    lookupAssoc (buildOuter now domain epath isSecure acc st) n = lookupAssoc acc n := by
  induction st generalizing acc with
  | nil => rfl
  | cons hd tl ih =>
      simp only [buildOuter]
      rw [ih _ fun dc hdc => h dc (List.mem_cons_of_mem _ hdc)]
      exact buildInner_lookup_notNamed _ _ _ _ _ _ _
        (h hd (List.mem_cons_self _ _))

theorem buildInner_lookup_mem (now : ℚ) (domain epath : String) (isSecure : Bool)
    (cs : List (String × Cookie)) (acc : List (String × String)) (c : Cookie) (n : String)
    (hmem : (n, c) ∈ cs) (hnodup : (cs.map Prod.fst).Nodup) :
    lookupAssoc (buildInner now domain epath isSecure acc cs) n =
      if passes now domain epath isSecure c then some c.value else lookupAssoc acc n := by
  induction cs generalizing acc with
  | nil => cases hmem
  | cons hd tl ih =>
      obtain ⟨m, c₀⟩ := hd
      simp only [List.map_cons, List.nodup_cons] at hnodup
      rcases List.mem_cons.mp hmem with hhd | htl
      · obtain ⟨heq1, heq2⟩ := Prod.mk.inj hhd
        subst heq1
        subst heq2
        have hrest : ∀ p ∈ tl, p.1 ≠ n := by
          intro p hp hpn
          exact hnodup.1 (hpn ▸ List.mem_map_of_mem Prod.fst hp)
        simp only [buildInner]
        rw [buildInner_lookup_notNamed _ _ _ _ _ _ _ hrest]
        by_cases h1 : c.isExpired now = true
        · simp [passes, h1]
        · by_cases h2 : c.matchesDomain domain = true
          · by_cases h3 : c.matchesPath epath = true
            · by_cases h4 : (c.secure && !isSecure) = true
              · simp [passes, h1, h2, h3, h4]
              · simp [passes, h1, h2, h3, h4, lookupAssoc_dictInsert]
            · simp [passes, h1, h2, h3]
          · simp [passes, h1, h2]
      · have hmn : n ≠ m := by
          intro hmn
          exact hnodup.1 (hmn ▸ List.mem_map_of_mem Prod.fst htl)
        simp only [buildInner]
        rw [ih _ htl hnodup.2]
        have hacc : ∀ acc' : List (String × String),
            lookupAssoc
              (if c₀.isExpired now then acc'
               else if !(c₀.matchesDomain domain) then acc'
               else if !(c₀.matchesPath epath) then acc'
               else if c₀.secure && !isSecure then acc'
               else dictInsert acc' m c₀.value) n = lookupAssoc acc' n := by
          intro acc'
          split_ifs <;> first
            | rfl
            | exact lookupAssoc_dictInsert_ne _ _ _ _ hmn
        by_cases hp : passes now domain epath isSecure c = true
        · simp only [if_pos hp]
        · simp only [if_neg hp]
          exact hacc acc

/-- A name stored in some bucket occurs in `allNames`. -/
theorem mem_allNames {st : CookieStore} {dc : String × List (String × Cookie)}
    {n : String} {c : Cookie} (hdc : dc ∈ st) (hp : (n, c) ∈ dc.2) :
    n ∈ allNames st := by
  simp only [allNames, List.mem_flatMap]
  exact ⟨dc, hdc, List.mem_map_of_mem Prod.fst hp⟩

theorem buildOuter_lookup_mem (now : ℚ) (domain epath : String) (isSecure : Bool)
    (st : CookieStore) (acc : List (String × String)) (c : Cookie) (n : String)
    (hmem : ∃ dc ∈ st, (n, c) ∈ dc.2) (hnodup : (allNames st).Nodup) :
    lookupAssoc (buildOuter now domain epath isSecure acc st) n =
      if passes now domain epath isSecure c then some c.value else lookupAssoc acc n := by
  induction st generalizing acc with
  | nil => obtain ⟨dc, hdc, _⟩ := hmem; cases hdc
  | cons hd tl ih =>
      have hnames : allNames (hd :: tl) = hd.2.map Prod.fst ++ allNames tl := by
        simp [allNames]
      rw [hnames] at hnodup
      have hnd1 := hnodup.of_append_left
      have hnd2 := hnodup.of_append_right
      have hdisj := List.disjoint_of_nodup_append hnodup
      obtain ⟨dc, hdc, hp⟩ := hmem
      rcases List.mem_cons.mp hdc with rfl | htl
      · have hrest : ∀ dc' ∈ tl, ∀ p ∈ dc'.2, p.1 ≠ n := by
          intro dc' hdc' p hp' hpn
          exact hdisj (List.mem_map_of_mem Prod.fst hp)
            (hpn ▸ mem_allNames hdc' hp')
        simp only [buildOuter]
        rw [buildOuter_lookup_notNamed _ _ _ _ _ _ _ hrest]
        exact buildInner_lookup_mem _ _ _ _ _ _ _ _ hp hnd1
      · have hhd : ∀ p ∈ hd.2, p.1 ≠ n := by
          intro p hp' hpn
          exact hdisj (List.mem_map_of_mem Prod.fst hp')
            (hpn ▸ mem_allNames htl hp)
        simp only [buildOuter]
        rw [ih _ ⟨dc, htl, hp⟩ hnd2]
        split_ifs with _
        · rfl
        · exact buildInner_lookup_notNamed _ _ _ _ _ _ _ hhd

/-- Two bindings of the same name in a name-nodup bucket carry the same
cookie. -/
theorem pair_unique_of_nodup {l : List (String × Cookie)}
    (h : (l.map Prod.fst).Nodup) {n : String} {a b : Cookie}
    (ha : (n, a) ∈ l) (hb : (n, b) ∈ l) : a = b := by
  induction l with
  | nil => cases ha
  | cons hd tl ih =>
      obtain ⟨m, c₀⟩ := hd
      simp only [List.map_cons, List.nodup_cons] at h
      rcases List.mem_cons.mp ha with hha | hta <;>
        rcases List.mem_cons.mp hb with hhb | htb
      · obtain ⟨_, h2⟩ := Prod.mk.inj hha
        obtain ⟨_, h4⟩ := Prod.mk.inj hhb
        rw [h2, h4]
      · obtain ⟨h1, _⟩ := Prod.mk.inj hha
        exact absurd (h1 ▸ List.mem_map_of_mem Prod.fst htb) h.1
      · obtain ⟨h1, _⟩ := Prod.mk.inj hhb
        exact absurd (h1 ▸ List.mem_map_of_mem Prod.fst hta) h.1
      · exact ih h.2 hta htb

/-- Two bindings of the same name anywhere in a name-nodup store carry the
same cookie. -/
theorem store_pair_unique {st : CookieStore} (h : (allNames st).Nodup)
    {n : String} {a b : Cookie} {dc₁ dc₂ : String × List (String × Cookie)}
    (h1 : dc₁ ∈ st) (h2 : (n, a) ∈ dc₁.2) (h3 : dc₂ ∈ st) (h4 : (n, b) ∈ dc₂.2) :
    a = b := by
  induction st with
  | nil => cases h1
  | cons hd tl ih =>
      have hnames : allNames (hd :: tl) = hd.2.map Prod.fst ++ allNames tl := by
        simp [allNames]
      rw [hnames] at h
      have hdisj := List.disjoint_of_nodup_append h
      rcases List.mem_cons.mp h1 with rfl | ht1 <;>
        rcases List.mem_cons.mp h3 with heq | ht3
      · exact pair_unique_of_nodup h.of_append_left h2 (heq ▸ h4)
      · exact absurd (mem_allNames ht3 h4)
          (hdisj (List.mem_map_of_mem Prod.fst h2))
      · exact absurd (mem_allNames ht1 h2)
          (hdisj (List.mem_map_of_mem Prod.fst (heq ▸ h4)))
      · exact ih h.of_append_right ht1 ht3

/-- An unexpired stored cookie survives the expiry sweep, in its bucket. -/
theorem mem_cleanupExpired {now : ℚ} {st : CookieStore} {n : String} {c : Cookie}
    (hmem : ∃ dc ∈ st, (n, c) ∈ dc.2) (hexp : c.isExpired now = false) :
    ∃ dc ∈ cleanupExpired now st, (n, c) ∈ dc.2 := by
  obtain ⟨dc, hdc, hp⟩ := hmem
  refine ⟨(dc.1, dc.2.filter (fun nc => !(nc.2.isExpired now))), ?_, ?_⟩
  · refine List.mem_filter.mpr ⟨?_, ?_⟩
    · exact List.mem_map_of_mem (fun dc => (dc.1, dc.2.filter (fun nc => !(nc.2.isExpired now)))) hdc
    · have : (n, c) ∈ dc.2.filter (fun nc => !(nc.2.isExpired now)) :=
        List.mem_filter.mpr ⟨hp, by simp [hexp]⟩
      simp only [Bool.not_eq_true']
      exact List.isEmpty_eq_false.mpr (List.ne_nil_of_mem this)
  · exact List.mem_filter.mpr ⟨hp, by simp [hexp]⟩

/-- Every binding of the swept store is an unexpired binding of the original
store. -/
theorem cleanupExpired_sub {now : ℚ} {st : CookieStore}
    {dc' : String × List (String × Cookie)} {p : String × Cookie}
    (hdc' : dc' ∈ cleanupExpired now st) (hp : p ∈ dc'.2) :
    ∃ dc ∈ st, p ∈ dc.2 ∧ p.2.isExpired now = false := by
  obtain ⟨hdm, _⟩ := List.mem_filter.mp hdc'
  obtain ⟨dc, hdc, heq⟩ := List.mem_map.mp hdm
  refine ⟨dc, hdc, ?_⟩
  rw [← heq] at hp
  obtain ⟨hmem, hunexp⟩ := List.mem_filter.mp hp
  exact ⟨hmem, by simpa using hunexp⟩

/-- If the (unique) cookie of a given name is expired, no binding of that
name survives the sweep. -/
theorem cleanupExpired_notNamed {now : ℚ} {st : CookieStore} {c : Cookie}
    (hnodup : (allNames st).Nodup) (hmem : ∃ dc ∈ st, (c.name, c) ∈ dc.2)
    (hexp : c.isExpired now = true) :
    ∀ dc' ∈ cleanupExpired now st, ∀ p ∈ dc'.2, p.1 ≠ c.name := by
  intro dc' hdc' p hp hpn
  obtain ⟨dc₀, hdc₀, hp₀, hunexp⟩ := cleanupExpired_sub hdc' hp
  obtain ⟨dc, hdc, hpc⟩ := hmem
  have : p.2 = c := by
    have := store_pair_unique hnodup hdc₀ (by rw [← hpn]; exact (by simpa using hp₀))
      hdc hpc
    exact this
  rw [this] at hunexp
  rw [hunexp] at hexp
  cases hexp

/-- The sweep only removes names. -/
theorem allNames_cleanupExpired_sublist (now : ℚ) :
    ∀ st : CookieStore, (allNames (cleanupExpired now st)).Sublist (allNames st) := by
  intro st
  induction st with
  | nil => simp [cleanupExpired, allNames]
  | cons dc rest ih =>
      simp only [cleanupExpired, List.map_cons, List.filter_cons] at ih ⊢
      split_ifs with hkeep
      · have h1 : ((dc.2.filter (fun nc => !(nc.2.isExpired now))).map Prod.fst).Sublist
            (dc.2.map Prod.fst) := (List.filter_sublist _).map Prod.fst
        simpa [allNames] using List.Sublist.append h1 ih
      · have h2 : (allNames ((rest.map (fun dc =>
            (dc.1, dc.2.filter (fun nc => !(nc.2.isExpired now))))).filter
              (fun dc => !dc.2.isEmpty))).Sublist (allNames rest) := ih
        refine List.Sublist.trans ?_ (List.sublist_append_right (dc.2.map Prod.fst) _)
        simpa [allNames] using h2

/-- C2 (amended): for a store in which no two cookies share a name, a stored
cookie `C`'s name is mapped to `C`'s value by `get_for_url` iff `C` is
unexpired, `C`'s domain matches the URL's netloc (exact, leading-dot suffix,
or subdomain match), the URL's (effective) path begins with `C`'s path, and
`C` is not secure or the scheme is https.  When several stored cookies share
a name the result maps that name to the last matching one in store iteration
order, so the value clause of the claim can fail (see the counterexample). -/
theorem cookie_get_for_url_iff (now : ℚ) (scheme netloc path : String)
    (st : CookieStore) (c : Cookie)
    (hnodup : (allNames st).Nodup)
    (hmem : storeMem c st = true)
    (hpath : path = "" ∨ strStartsWith path "/" = true) :
    lookupAssoc (getForUrlParts now scheme netloc path st).1 c.name = some c.value ↔
      (c.isExpired now = false ∧
       c.matchesDomain (strLower netloc) = true ∧
       strStartsWith (if path == "" then "/" else path) c.path = true ∧
       (c.secure = false ∨ strLower scheme = "https")) := by
  have hmem' : ∃ dc ∈ st, (c.name, c) ∈ dc.2 := by
    simp only [storeMem, List.any_eq_true, Bool.and_eq_true, beq_iff_eq] at hmem
    obtain ⟨dc, hdc, nc, hnc, h1, h2⟩ := hmem
    refine ⟨dc, hdc, ?_⟩
    rw [← h1, ← h2]
    exact hnc
  have hroot : strStartsWith (if path == "" then "/" else path) "/" = true := by
    rcases hpath with hp0 | hps
    · subst hp0
      decide
    · have : (path == "") = false ∨ (path == "") = true := by
        rcases path == "" with _ | _ <;> simp
      rcases this with hf | ht
      · simpa [hf] using hps
      · simp only [beq_iff_eq] at ht
        subst ht
        decide
  have hpatheq : c.matchesPath (if path == "" then "/" else path) =
      strStartsWith (if path == "" then "/" else path) c.path := by
    simp only [Cookie.matchesPath]
    by_cases hcp : (c.path == "/") = true
    · simp only [beq_iff_eq] at hcp
      rw [if_pos (by simp [hcp]), hcp, hroot]
    · rw [if_neg hcp]
  have hseceq : (!(c.secure && !(strLower scheme == "https"))) = true ↔
      (c.secure = false ∨ strLower scheme = "https") := by
    rcases hsec : c.secure <;> rcases hsch : strLower scheme == "https" <;>
      simp_all [beq_iff_eq]
  simp only [getForUrlParts]
  by_cases hexp : c.isExpired now = true
  · have hnone := buildOuter_lookup_notNamed now (strLower netloc)
      (if path == "" then "/" else path) (strLower scheme == "https")
      (cleanupExpired now st) [] c.name
      (cleanupExpired_notNamed hnodup hmem' hexp)
    rw [hnone]
    simp [lookupAssoc, hexp]
  · have hexp' : c.isExpired now = false := by
      rcases h : c.isExpired now with _ | _
      · rfl
      · exact absurd h hexp
    have hmemc := mem_cleanupExpired hmem' hexp'
    have hndc : (allNames (cleanupExpired now st)).Nodup :=
      hnodup.sublist (allNames_cleanupExpired_sublist now st)
    rw [buildOuter_lookup_mem now (strLower netloc)
      (if path == "" then "/" else path) (strLower scheme == "https")
      (cleanupExpired now st) [] c c.name hmemc hndc]
    by_cases hp : passes now (strLower netloc) (if path == "" then "/" else path)
        (strLower scheme == "https") c = true
    · simp only [if_pos hp]
      simp only [passes, Bool.and_eq_true, Bool.not_eq_true'] at hp
      obtain ⟨⟨⟨_, h2⟩, h3⟩, h4⟩ := hp
      constructor
      · intro _
        refine ⟨hexp', h2, ?_, ?_⟩
        · rw [← hpatheq]
          exact h3
        · exact hseceq.mp (by simp [h4])
      · intro _
        trivial
    · simp only [if_neg hp, lookupAssoc]
      constructor
      · intro h
        cases h
      · intro ⟨_, h2, h3, h4⟩
        exact absurd (by
          simp only [passes, Bool.and_eq_true, Bool.not_eq_true']
          refine ⟨⟨⟨by simp [hexp'], h2⟩, ?_⟩, ?_⟩
          · rw [hpatheq]
            exact h3
          · rcases h4 with hsf | hsch
            · simp [hsf]
            · simp [hsch]) hp

/-- Witness for `cookie_get_for_url_iff`: a single stored secure cookie and a
https URL; all hypotheses hold by computation and the four conditions hold,
so the lookup returns the value. -/
theorem cookie_get_for_url_iff_witness :
    lookupAssoc
        (getForUrlParts 5 "https" "Ex.com" "/dash"
          (cookieStoreSet "sid" "abc" "ex.com" "/" (some 9) true false [])).1 "sid" =
      some "abc" :=
  (cookie_get_for_url_iff 5 "https" "Ex.com" "/dash"
      (cookieStoreSet "sid" "abc" "ex.com" "/" (some 9) true false [])
      ⟨"sid", "abc", "ex.com", "/", some 9, true, false⟩
      (by decide) (by decide) (Or.inr (by decide))).mpr
    (by refine ⟨?_, ?_, ?_, ?_⟩ <;> decide)

/-! ## Proxy pool (`safety/proxy_pool.py`) -/

/-- `Proxy`: a pool entry with health-tracking metadata. -/
structure Proxy where
  url : String
  enabled : Bool := true
  consecutiveFailures : Nat := 0
  totalRequests : Nat := 0
  totalFailures : Nat := 0
  lastUsed : ℚ := 0
  lastFailure : ℚ := 0
  disabledUntil : ℚ := 0
  deriving Repr, DecidableEq

/-- `Proxy(url=url)` with the dataclass defaults. -/
def mkProxy (url : String) : Proxy :=
  { url := url }

/-- The pool's rotation strategies. -/
inductive PoolStrategy where
  | roundRobin
  | random
  | leastUsed
  deriving Repr, DecidableEq

/-- `ProxyPool` state: configuration, the persistent round-robin index and
the entry list in insertion order. -/
structure ProxyPool where
  strategy : PoolStrategy
  maxFailures : Nat
  cooldown : ℚ
  rrIndex : Nat
  proxies : List Proxy
  deriving Repr, DecidableEq

/-- Set of schemes accepted by `validate_proxy_url`. -/
def validProxySchemes : List String :=
  ["http", "https", "socks4", "socks5", "socks4a", "socks5h"]

/-- `validate_proxy_url`: non-empty string, recognized scheme, non-empty
hostname; the reason string of `InvalidProxyURLError` is the error value. -/
def validateProxyUrl (url : String) : Except String Unit :=
  if url = "" then .error "URL must be a non-empty string"
  else
    let scheme := schemeOf url
    if scheme = "" then .error "Missing scheme"
    else if ¬ validProxySchemes.contains scheme then .error "Invalid scheme"
    else if hostnameOf (netlocOf url) = "" then .error "Missing hostname"
    else .ok ()

namespace ProxyPool

/-- `ProxyPool._check_recovery`: re-enable every disabled entry whose
cooldown has lapsed (`disabled_until <= now`) and zero its consecutive
failures. -/
def checkRecovery (now : ℚ) (s : ProxyPool) : ProxyPool :=
  { s with
    proxies := s.proxies.map fun p =>
      if !p.enabled && decide (p.disabledUntil ≤ now) then
        { p with enabled := true, consecutiveFailures := 0 }
      else p }

/-- The first element of the `(index, proxy)` pairs attaining the minimal
`last_used` — Python's `min(available, key=lambda p: p.last_used)`
tie-breaking (the first minimal element wins). -/
def minByLastUsed (l : List (Nat × Proxy)) : Nat × Proxy :=
  l.tail.foldl
    (fun best q => if decide (q.2.lastUsed < best.2.lastUsed) then q else best)
    (l.headD (0, mkProxy ""))

/-- `ProxyPool.get_proxy`: run recovery, filter the enabled entries, pick one
per strategy (the `random` strategy consumes the explicit draw `rand`), stamp
it (`last_used`, `total_requests`) and return a copy of the stamped entry.
The pair positions of `enum` stand for the identity of the mutated list
elements. -/
def getProxy (rand : Nat) (now : ℚ) (s : ProxyPool) : Option Proxy × ProxyPool :=
  let s := checkRecovery now s
  let avail := s.proxies.enum.filter fun ip => ip.2.enabled
  if avail.length = 0 then (none, s)
  else
    let ip :=
      match s.strategy with
      | .roundRobin => avail.getD (s.rrIndex % avail.length) (0, mkProxy "")
      | .random => avail.getD (rand % avail.length) (0, mkProxy "")
      | .leastUsed => minByLastUsed avail
    let p' := { ip.2 with lastUsed := now, totalRequests := ip.2.totalRequests + 1 }
    let rrIndex' :=
      match s.strategy with
      | .roundRobin => (s.rrIndex + 1) % avail.length
      | _ => s.rrIndex
    (some p', { s with proxies := s.proxies.set ip.1 p', rrIndex := rrIndex' })

end ProxyPool

/-- Python's find-first-and-mutate loop with `break`: apply `f` to the first
element satisfying `sel`, leave the rest untouched. -/
def updateFirst {α : Type} (sel : α → Bool) (f : α → α) : List α → List α
  | [] => []
  | a :: rest => if sel a then f a :: rest else a :: updateFirst sel f rest

namespace ProxyPool

/-- `ProxyPool.report_success`: zero the consecutive-failure counter of the
first entry with the given URL (and nothing else). -/
def reportSuccess (proxyUrl : String) (s : ProxyPool) : ProxyPool :=
  { s with
    proxies := updateFirst (fun p => p.url == proxyUrl)
      (fun p => { p with consecutiveFailures := 0 }) s.proxies }

/-- The per-entry mutation of `ProxyPool.report_failure`: bump the failure
counters, stamp `last_failure`, and disable the entry with
`disabled_until = now + cooldown` once `consecutive_failures` reaches
`max_failures`. -/
def failUpdate (now : ℚ) (maxFailures : Nat) (cooldown : ℚ) (p : Proxy) : Proxy :=
  let p := { p with
    consecutiveFailures := p.consecutiveFailures + 1
    totalFailures := p.totalFailures + 1
    lastFailure := now }
  if maxFailures ≤ p.consecutiveFailures then
    { p with enabled := false, disabledUntil := now + cooldown }
  else p

/-- `ProxyPool.report_failure` applied to the first entry with the URL. -/
def reportFailure (now : ℚ) (proxyUrl : String) (s : ProxyPool) : ProxyPool :=
  { s with
    proxies := updateFirst (fun p => p.url == proxyUrl)
      (failUpdate now s.maxFailures s.cooldown) s.proxies }

/-- `ProxyPool.add_proxy`: validate, then append unless an entry with the
same URL already exists. -/
def addProxy (url : String) (s : ProxyPool) : Except String ProxyPool := do
  _ ← validateProxyUrl url
  if s.proxies.any (fun p => p.url = url) then pure s
  else pure { s with proxies := s.proxies ++ [mkProxy url] }

end ProxyPool

/-- C10: `add_proxy` is idempotent — a second `add_proxy` with the same URL
(on the state produced by the first) returns that state unchanged, and an
invalid URL fails identically both times, so `add_proxy(u) ∘ add_proxy(u)`
equals `add_proxy(u)` on every pool state. -/
theorem addProxy_idempotent (url : String) (s : ProxyPool) :
    (ProxyPool.addProxy url s).bind (ProxyPool.addProxy url) =
      ProxyPool.addProxy url s := by
  simp only [ProxyPool.addProxy]
  cases hval : validateProxyUrl url with
  | error e => rfl
  | ok _ =>
      by_cases hdup : s.proxies.any (fun p => p.url = url) = true
      · simp [ProxyPool.addProxy, hval, hdup, Except.bind]
      · have hmem : ({ s with proxies := s.proxies ++ [mkProxy url]} :
            ProxyPool).proxies.any (fun p => p.url = url) = true := by
          simp [mkProxy]
        simp [ProxyPool.addProxy, hval, hdup, hmem, Except.bind]

/-- Recovery is a no-op on a pool whose entries are all enabled. -/
theorem checkRecovery_id (now : ℚ) (s : ProxyPool)
    (hen : ∀ p ∈ s.proxies, p.enabled = true) :
    ProxyPool.checkRecovery now s = s := by
  simp only [ProxyPool.checkRecovery]
  have : s.proxies.map (fun p =>
      if !p.enabled && decide (p.disabledUntil ≤ now) then
        { p with enabled := true, consecutiveFailures := 0 }
      else p) = s.proxies := by
    rw [List.map_congr_left (g := id) ?_, List.map_id]
    intro p hp
    simp [hen p hp]
  rw [this]

/-- With every entry enabled, the availability filter keeps the whole
enumerated list. -/
theorem avail_eq_enum (s : ProxyPool) (hen : ∀ p ∈ s.proxies, p.enabled = true) :
    s.proxies.enum.filter (fun ip => ip.2.enabled) = s.proxies.enum := by
  apply List.filter_eq_self.mpr
  intro ip hip
  obtain ⟨i, p⟩ := ip
  have h := List.mem_enumFrom hip
  obtain ⟨-, -, hval⟩ := h
  rw [hval]
  exact hen _ (s.proxies.getElem_mem _)

/-- The explicit form of a `get_proxy` step under the round-robin strategy on
an all-enabled pool. -/
theorem getProxy_roundRobin_eq (rand : Nat) (now : ℚ) (s : ProxyPool)
    (hstrat : s.strategy = .roundRobin)
    (hen : ∀ p ∈ s.proxies, p.enabled = true)
    (hpos : 0 < s.proxies.length) :
    ProxyPool.getProxy rand now s =
      (some { s.proxies.getD (s.rrIndex % s.proxies.length) (mkProxy "") with
                lastUsed := now
                totalRequests :=
                  (s.proxies.getD (s.rrIndex % s.proxies.length)
                    (mkProxy "")).totalRequests + 1 },
        { s with
          proxies := s.proxies.set (s.rrIndex % s.proxies.length)
            { s.proxies.getD (s.rrIndex % s.proxies.length) (mkProxy "") with
                lastUsed := now
                totalRequests :=
                  (s.proxies.getD (s.rrIndex % s.proxies.length)
                    (mkProxy "")).totalRequests + 1 }
          rrIndex := (s.rrIndex + 1) % s.proxies.length }) := by
  have hmod : s.rrIndex % s.proxies.length < s.proxies.length :=
    Nat.mod_lt _ hpos
  have hmod' : s.rrIndex % s.proxies.length < s.proxies.enum.length := by
    simpa [List.enum_length] using hmod
  simp only [ProxyPool.getProxy, checkRecovery_id now s hen, avail_eq_enum s hen,
    List.enum_length, hstrat]
  rw [if_neg (by omega)]
  rw [List.getD_eq_getElem _ _ hmod', List.getElem_enum]
  rw [List.getD_eq_getElem _ _ hmod]

/-- Multiplicity of an element in a list (used instead of `List.count` to
keep one uniform `DecidableEq`-based notion). -/
def countOcc {α : Type} [DecidableEq α] (a : α) : List α → Nat
  | [] => 0
  | b :: l => (if b = a then 1 else 0) + countOcc a l

theorem countOcc_append {α : Type} [DecidableEq α] (a : α) (l₁ l₂ : List α) :
    countOcc a (l₁ ++ l₂) = countOcc a l₁ + countOcc a l₂ := by
  induction l₁ with
  | nil => simp [countOcc]
  | cons b l ih =>
      simp only [List.cons_append, countOcc, List.append_eq]
      rw [ih]
      omega

theorem countOcc_flatten_replicate {α : Type} [DecidableEq α] (k : Nat) (l : List α)
    (a : α) : countOcc a (List.flatten (List.replicate k l)) = k * countOcc a l := by
  induction k with
  | zero => simp [countOcc]
  | succ k ih =>
      simp only [List.replicate_succ, List.flatten_cons, countOcc_append, ih,
        Nat.succ_mul]
      omega

theorem countOcc_rotate {α : Type} [DecidableEq α] (l : List α) (n : Nat) (a : α) :
    countOcc a (l.rotate n) = countOcc a l := by
  rcases Nat.eq_zero_or_pos l.length with hlen | hlen
  · rw [List.eq_nil_of_length_eq_zero hlen]
    simp [List.rotate_nil]
  · rw [← List.rotate_mod]
    rw [List.rotate_eq_drop_append_take (le_of_lt (Nat.mod_lt _ hlen))]
    rw [countOcc_append]
    conv_rhs => rw [← List.take_append_drop (n % l.length) l, countOcc_append]
    omega

theorem countOcc_some_map (U : List String) (u : String) :
    countOcc (some u) (U.map some) = countOcc u U := by
  induction U with
  | nil => rfl
  | cons a l ih => simp [countOcc, ih]

theorem countOcc_eq_zero_of_not_mem {α : Type} [DecidableEq α] {l : List α} {a : α}
    (h : a ∉ l) : countOcc a l = 0 := by
  induction l with
  | nil => rfl
  | cons b m ih =>
      simp only [List.mem_cons, not_or] at h
      simp only [countOcc, ih h.2]
      rw [if_neg (fun hh : b = a => h.1 hh.symm)]

theorem countOcc_eq_one_of_nodup_mem {α : Type} [DecidableEq α] {l : List α} {a : α}
    (hnd : l.Nodup) (hm : a ∈ l) : countOcc a l = 1 := by
  induction l with
  | nil => cases hm
  | cons b m ih =>
      simp only [List.nodup_cons] at hnd
      rcases List.mem_cons.mp hm with rfl | htl
      · simp [countOcc, countOcc_eq_zero_of_not_mem hnd.1]
      · have hb : b ≠ a := fun hh => hnd.1 (hh ▸ htl)
        simp only [countOcc, if_neg hb, ih hnd.2 htl]

/-- Stamping the selected entry changes neither the URL sequence of the
pool... -/
theorem map_url_set_stamp (l : List Proxy) (pos : Nat) (hpos : pos < l.length) (now : ℚ) :
    (l.set pos { l.getD pos (mkProxy "") with
        lastUsed := now
        totalRequests := (l.getD pos (mkProxy "")).totalRequests + 1 }).map Proxy.url =
      l.map Proxy.url := by
  apply List.ext_getElem
  · simp
  · intro j h1 h2
    simp only [List.getElem_map, List.getElem_set]
    split_ifs with hj
    · subst hj
      rw [List.getD_eq_getElem _ _ hpos]
    · rfl

/-- ... nor the enabled flags. -/
theorem enabled_set_stamp (l : List Proxy) (pos : Nat) (hpos : pos < l.length) (now : ℚ)
    (hen : ∀ p ∈ l, p.enabled = true) :
    ∀ p ∈ l.set pos { l.getD pos (mkProxy "") with
        lastUsed := now
        totalRequests := (l.getD pos (mkProxy "")).totalRequests + 1 },
      p.enabled = true := by
  intro p hp
  obtain ⟨j, hj, hget⟩ := List.mem_iff_getElem.mp hp
  rw [← hget, List.getElem_set]
  split_ifs with hjp
  · rw [List.getD_eq_getElem _ _ hpos]
    exact hen (l.get ⟨pos, hpos⟩) (List.getElem_mem hpos)
  · exact hen _ (l.getElem_mem _)

/-- The URL of the entry picked at `pos`, seen through the URL sequence. -/
theorem url_getD (l : List Proxy) (pos : Nat) (hpos : pos < l.length) :
    (l.getD pos (mkProxy "")).url = (l.map Proxy.url).getD pos "" := by
  rw [List.getD_eq_getElem _ _ hpos,
    List.getD_eq_getElem _ _ (by simpa using hpos), List.getElem_map]

/-- Run a sequence of `get_proxy` calls at the given times, collecting the
URLs of the returned entries (the random draw is irrelevant to the
round-robin strategy and fixed at 0). -/
def getProxyUrls (times : List ℚ) (s : ProxyPool) : List (Option String) :=
  match times with
  | [] => []
  | t :: rest =>
      (ProxyPool.getProxy 0 t s).1.map Proxy.url ::
        getProxyUrls rest (ProxyPool.getProxy 0 t s).2

theorem getProxyUrls_formula (times : List ℚ) (s : ProxyPool)
    (hstrat : s.strategy = .roundRobin)
    (hen : ∀ p ∈ s.proxies, p.enabled = true)
    (hpos : 0 < s.proxies.length) :
    getProxyUrls times s = (List.range times.length).map
      (fun j => some ((s.proxies.map Proxy.url).getD
        ((j + s.rrIndex) % s.proxies.length) "")) := by
  induction times generalizing s with
  | nil => simp [getProxyUrls]
  | cons t rest ih =>
      have hmod : s.rrIndex % s.proxies.length < s.proxies.length :=
        Nat.mod_lt _ hpos
      have heq := getProxy_roundRobin_eq 0 t s hstrat hen hpos
      have h2strat : (ProxyPool.getProxy 0 t s).2.strategy = .roundRobin := by
        rw [heq]; exact hstrat
      have h2en : ∀ p ∈ (ProxyPool.getProxy 0 t s).2.proxies, p.enabled = true := by
        rw [heq]; exact enabled_set_stamp _ _ hmod _ hen
      have h2len : (ProxyPool.getProxy 0 t s).2.proxies.length = s.proxies.length := by
        rw [heq]; simp
      have h2map : (ProxyPool.getProxy 0 t s).2.proxies.map Proxy.url =
          s.proxies.map Proxy.url := by
        rw [heq]; exact map_url_set_stamp _ _ hmod _
      have h2idx : (ProxyPool.getProxy 0 t s).2.rrIndex =
          (s.rrIndex + 1) % s.proxies.length := by
        rw [heq]
      have h1url : (ProxyPool.getProxy 0 t s).1.map Proxy.url =
          some ((s.proxies.map Proxy.url).getD (s.rrIndex % s.proxies.length) "") := by
        rw [heq]
        simp [url_getD _ _ hmod]
        rw [List.getElem?_eq_getElem hmod]
        simp
      have hih := ih (ProxyPool.getProxy 0 t s).2 h2strat h2en (h2len ▸ hpos)
      rw [h2map, h2idx, h2len] at hih
      simp only [getProxyUrls]
      rw [hih, h1url]
      simp only [List.length_cons, List.range_succ_eq_map, List.map_cons, List.map_map]
      congr 1
      · simp
      · apply List.map_congr_left
        intro j hj
        simp only [Function.comp_apply]
        congr 2
        rw [Nat.add_mod_mod]
        congr 1
        omega

/-- One full pass of the round-robin index is a rotation of the URL list. -/
theorem map_range_mod_rotate (U : List String) (i : Nat) (h : 0 < U.length) :
    (List.range U.length).map (fun j => some (U.getD ((j + i) % U.length) "")) =
      (U.map some).rotate i := by
  apply List.ext_getElem
  · simp [List.rotate_length]
  · intro t h1 h2
    simp only [List.getElem_map, List.getElem_range]
    rw [List.getElem_rotate]
    simp only [List.getElem_map, List.length_map]
    rw [List.getD_eq_getElem _ _ (Nat.mod_lt _ h)]

/-- `N·k` consecutive picks are `k` concatenated rotations. -/
theorem range_mul_cycles (U : List String) (i : Nat) (h : 0 < U.length) (k : Nat) :
    (List.range (U.length * k)).map
        (fun j => some (U.getD ((j + i) % U.length) "")) =
      List.flatten (List.replicate k ((U.map some).rotate i)) := by
  induction k with
  | zero => simp
  | succ k ih =>
      have hsplit : U.length * (k + 1) = U.length * k + U.length := by ring
      rw [hsplit, List.range_add, List.map_append, ih, List.replicate_succ',
        List.flatten_append]
      congr 1
      simp only [List.flatten_cons, List.flatten_nil, List.append_nil]
      rw [List.map_map, ← map_range_mod_rotate U i h]
      apply List.map_congr_left
      intro j hj
      simp only [Function.comp_apply]
      congr 2
      rw [show U.length * k + j + i = (j + i) + U.length * k by ring,
        Nat.add_mul_mod_self_left]

/-- C5: for a `round_robin` pool of `N` proxies (with distinct URLs), all
enabled, with no failure reports or pool mutations interleaved, any sequence
of `N·k` consecutive `get_proxy` calls cycles through the entries in
insertion order — the output URL sequence is `k` concatenated rotations of
the URL list starting at the persistent index — and therefore returns each of
the `N` proxies exactly `k` times. -/
theorem roundRobin_cycles (s : ProxyPool) (k : Nat) (times : List ℚ)
    (hstrat : s.strategy = .roundRobin)
    (hen : ∀ p ∈ s.proxies, p.enabled = true)
    (hpos : 0 < s.proxies.length)
    (hnodup : (s.proxies.map Proxy.url).Nodup)
    (hlen : times.length = s.proxies.length * k) :
    getProxyUrls times s =
      List.flatten (List.replicate k
        (((s.proxies.map Proxy.url).map some).rotate s.rrIndex)) ∧
    ∀ p ∈ s.proxies, countOcc (some p.url) (getProxyUrls times s) = k := by
  have hU : (s.proxies.map Proxy.url).length = s.proxies.length := by simp
  have hform := getProxyUrls_formula times s hstrat hen hpos
  rw [hlen] at hform
  simp only [← hU] at hform
  rw [range_mul_cycles _ _ (by simpa [hU] using hpos) k] at hform
  refine ⟨hform, ?_⟩
  intro p hp
  rw [hform, countOcc_flatten_replicate, countOcc_rotate, countOcc_some_map,
    countOcc_eq_one_of_nodup_mem hnodup (List.mem_map_of_mem Proxy.url hp),
    Nat.mul_one]

/-- Witness for `roundRobin_cycles`: a fresh two-proxy round-robin pool and
two calls (`k = 1`) produce each proxy once, in insertion order. -/
theorem roundRobin_cycles_witness :
    getProxyUrls [0, 1]
        { strategy := .roundRobin, maxFailures := 3, cooldown := 300, rrIndex := 0
          proxies := [mkProxy "http://p1:8080", mkProxy "http://p2:8080"] } =
      List.flatten (List.replicate 1
        ((([mkProxy "http://p1:8080", mkProxy "http://p2:8080"].map Proxy.url).map
          some).rotate 0)) ∧
    ∀ p ∈ [mkProxy "http://p1:8080", mkProxy "http://p2:8080"],
      countOcc (some p.url) (getProxyUrls [0, 1]
        { strategy := .roundRobin, maxFailures := 3, cooldown := 300, rrIndex := 0
          proxies := [mkProxy "http://p1:8080", mkProxy "http://p2:8080"] }) = 1 :=
  roundRobin_cycles
    { strategy := .roundRobin, maxFailures := 3, cooldown := 300, rrIndex := 0
      proxies := [mkProxy "http://p1:8080", mkProxy "http://p2:8080"] }
    1 [0, 1] rfl (by decide) (by decide) (by decide) rfl

/-- The entry at position `p` of the pool. -/
def proxyAt (s : ProxyPool) (p : Nat) : Proxy :=
  s.proxies.getD p (mkProxy "")

/-- `report_failure(u)` at each of the given times, in order. -/
def applyFailures (u : String) (ts : List ℚ) (s : ProxyPool) : ProxyPool :=
  match ts with
  | [] => s
  | t :: rest => applyFailures u rest (ProxyPool.reportFailure t u s)

/-- Run `get_proxy` at each of the given times, collecting the returned
copies. -/
def runGetProxy (times : List ℚ) (s : ProxyPool) : List (Option Proxy) × ProxyPool :=
  match times with
  | [] => ([], s)
  | t :: rest =>
      let r := ProxyPool.getProxy 0 t s
      let rr := runGetProxy rest r.2
      (r.1 :: rr.1, rr.2)

theorem updateFirst_eq_set {α : Type} (sel : α → Bool) (f : α → α) (l : List α)
    (p : Nat) (d : α) (hp : p < l.length) (hsel : sel (l.getD p d) = true)
    (hbefore : ∀ j, j < p → sel (l.getD j d) = false) :
    updateFirst sel f l = l.set p (f (l.getD p d)) := by
  induction l generalizing p with
  | nil => cases hp
  | cons a rest ih =>
      cases p with
      | zero =>
          rw [List.getD_cons_zero] at hsel ⊢
          simp [updateFirst, hsel]
      | succ q =>
          have ha : sel a = false := by
            have := hbefore 0 (Nat.succ_pos q)
            rwa [List.getD_cons_zero] at this
          rw [List.getD_cons_succ]
          simp only [updateFirst, ha, Bool.false_eq_true, if_false, List.set_cons_succ]
          rw [ih q (by simpa using hp) (by rwa [List.getD_cons_succ] at hsel)
            (fun j hj => by
              have := hbefore (j + 1) (by omega)
              rwa [List.getD_cons_succ] at this)]

theorem url_ne_of_nodup {l : List Proxy} (hnodup : (l.map Proxy.url).Nodup)
    {p j : Nat} (hp : p < l.length) (hj : j < l.length) (hne : j ≠ p) :
    (l.getD j (mkProxy "")).url ≠ (l.getD p (mkProxy "")).url := by
  intro heq
  rw [List.getD_eq_getElem _ _ hp, List.getD_eq_getElem _ _ hj] at heq
  have hj' : j < (l.map Proxy.url).length := by simpa using hj
  have hp' : p < (l.map Proxy.url).length := by simpa using hp
  have : (l.map Proxy.url)[j] = (l.map Proxy.url)[p] := by
    simpa [List.getElem_map] using heq
  exact hne ((List.Nodup.getElem_inj_iff hnodup).mp this)

/-- A general form of `map_url_set_stamp`: setting position `i` to an entry
with the same URL preserves the URL sequence. -/
theorem map_url_set (l : List Proxy) (i : Nat) (v : Proxy)
    (hv : v.url = (l.getD i (mkProxy "")).url) :
    (l.set i v).map Proxy.url = l.map Proxy.url := by
  apply List.ext_getElem
  · simp
  · intro j h1 h2
    simp only [List.getElem_map, List.getElem_set]
    split_ifs with hj
    · subst hj
      rw [hv, List.getD_eq_getElem _ _ (by simpa using h2)]
    · rfl

/-- `report_failure` with a URL unique to position `p` mutates exactly that
entry. -/
theorem reportFailure_at (now : ℚ) (u : String) (s : ProxyPool) (p : Nat)
    (hnodup : (s.proxies.map Proxy.url).Nodup) (hp : p < s.proxies.length)
    (hurl : (proxyAt s p).url = u) :
    ProxyPool.reportFailure now u s =
      { s with
        proxies := s.proxies.set p
          (ProxyPool.failUpdate now s.maxFailures s.cooldown (proxyAt s p)) } := by
  simp only [ProxyPool.reportFailure]
  congr 1
  apply updateFirst_eq_set _ _ _ p (mkProxy "") hp
  · simp only [proxyAt] at hurl
    simp only [beq_iff_eq]
    exact hurl
  · intro j hj
    have hne := url_ne_of_nodup hnodup hp (lt_trans hj hp) (by omega)
    simp only [proxyAt] at hurl
    simp only [beq_eq_false_iff_ne, ne_eq]
    rw [← hurl]
    exact hne

theorem getD_set_self {α : Type} (l : List α) (p : Nat) (hp : p < l.length) (v d : α) :
    (l.set p v).getD p d = v := by
  rw [List.getD_eq_getElem _ _ (by simpa using hp), List.getElem_set, if_pos rfl]

theorem getD_set_other {α : Type} (l : List α) (p q : Nat) (hne : p ≠ q) (v d : α) :
    (l.set p v).getD q d = l.getD q d := by
  rcases Nat.lt_or_ge q l.length with hq | hq
  · rw [List.getD_eq_getElem _ _ (by simpa using hq), List.getD_eq_getElem _ _ hq,
      List.getElem_set, if_neg hne]
  · rw [List.getD_eq_default _ _ (by simpa using hq), List.getD_eq_default _ _ hq]

theorem getLastD_irrel {α : Type} : ∀ (l : List α) (a d₁ d₂ : α),
    (a :: l).getLastD d₁ = (a :: l).getLastD d₂
  | [], _, _, _ => rfl
  | b :: m, a, d₁, d₂ => by
      conv_lhs => rw [List.getLastD_cons]
      conv_rhs => rw [List.getLastD_cons]

theorem failUpdate_url (now : ℚ) (k : Nat) (t : ℚ) (e : Proxy) :
    (ProxyPool.failUpdate now k t e).url = e.url := by
  simp only [ProxyPool.failUpdate]
  split_ifs <;> rfl

theorem failUpdate_consecutive (now : ℚ) (k : Nat) (t : ℚ) (e : Proxy) :
    (ProxyPool.failUpdate now k t e).consecutiveFailures =
      e.consecutiveFailures + 1 := by
  simp only [ProxyPool.failUpdate]
  split_ifs <;> rfl

theorem failUpdate_disable (now : ℚ) (k : Nat) (t : ℚ) (e : Proxy)
    (h : k ≤ e.consecutiveFailures + 1) :
    (ProxyPool.failUpdate now k t e).enabled = false ∧
      (ProxyPool.failUpdate now k t e).disabledUntil = now + t := by
  simp only [ProxyPool.failUpdate]
  rw [if_pos h]
  constructor <;> trivial

theorem failUpdate_keep (now : ℚ) (k : Nat) (t : ℚ) (e : Proxy)
    (h : e.consecutiveFailures + 1 < k) :
    (ProxyPool.failUpdate now k t e).enabled = e.enabled ∧
      (ProxyPool.failUpdate now k t e).disabledUntil = e.disabledUntil := by
  simp only [ProxyPool.failUpdate]
  rw [if_neg (by omega)]
  constructor <;> trivial

theorem applyFailures_spec : ∀ (ts : List ℚ) (s : ProxyPool) (u : String) (p : Nat),
    (s.proxies.map Proxy.url).Nodup → p < s.proxies.length →
    (proxyAt s p).url = u → (proxyAt s p).enabled = true →
    ts ≠ [] → (proxyAt s p).consecutiveFailures + ts.length = s.maxFailures →
    (applyFailures u ts s).maxFailures = s.maxFailures ∧
    (applyFailures u ts s).cooldown = s.cooldown ∧
    (applyFailures u ts s).proxies.map Proxy.url = s.proxies.map Proxy.url ∧
    (proxyAt (applyFailures u ts s) p).url = u ∧
    (proxyAt (applyFailures u ts s) p).enabled = false ∧
    (proxyAt (applyFailures u ts s) p).consecutiveFailures = s.maxFailures ∧
    (proxyAt (applyFailures u ts s) p).disabledUntil = ts.getLastD 0 + s.cooldown := by
  intro ts
  induction ts with
  | nil => intro s u p _ _ _ _ hne _; exact absurd rfl hne
  | cons t rest ih =>
      intro s u p hnodup hp hurl hen hne hcnt
      have hrep := reportFailure_at t u s p hnodup hp hurl
      simp only [applyFailures, hrep]
      set e := proxyAt s p with he
      set e' := ProxyPool.failUpdate t s.maxFailures s.cooldown e with he'
      set s₂ : ProxyPool := { s with proxies := s.proxies.set p e' } with hs₂
      have hp₂ : p < s₂.proxies.length := by simpa using hp
      have hat₂ : proxyAt s₂ p = e' := by
        simp only [proxyAt, hs₂]
        exact getD_set_self _ _ hp _ _
      have hmap₂ : s₂.proxies.map Proxy.url = s.proxies.map Proxy.url := by
        simp only [hs₂]
        exact map_url_set _ _ _ (by rw [failUpdate_url]; rfl)
      cases rest with
      | nil =>
          simp only [applyFailures]
          have hK : s.maxFailures ≤ e.consecutiveFailures + 1 := by
            simp only [List.length_cons, List.length_nil] at hcnt
            omega
          have hdis := failUpdate_disable t s.maxFailures s.cooldown e hK
          refine ⟨by trivial, by trivial, hmap₂, ?_, ?_, ?_, ?_⟩
          · rw [hat₂, he', failUpdate_url]
            exact hurl
          · rw [hat₂]
            exact hdis.1
          · rw [hat₂, he', failUpdate_consecutive]
            simp only [List.length_cons, List.length_nil] at hcnt
            omega
          · rw [hat₂]
            simpa [List.getLastD] using hdis.2
      | cons t' rest' =>
          have hlt : e.consecutiveFailures + 1 < s.maxFailures := by
            simp only [List.length_cons] at hcnt
            omega
          have hkeep := failUpdate_keep t s.maxFailures s.cooldown e hlt
          have hih := ih s₂ u p (hmap₂ ▸ hnodup) hp₂
            (by rw [hat₂, he', failUpdate_url]; exact hurl)
            (by rw [hat₂]; rw [hkeep.1]; exact hen)
            (by simp)
            (by
              rw [hat₂, he', failUpdate_consecutive]
              simp only [List.length_cons] at hcnt ⊢
              show e.consecutiveFailures + 1 + (rest'.length + 1) = s.maxFailures
              omega)
          obtain ⟨hm, hc, hmap, hu, hd, hcf, hdu⟩ := hih
          refine ⟨hm, hc, hmap.trans hmap₂, hu, hd, hcf, ?_⟩
          rw [hdu]
          have hlast : (t :: t' :: rest').getLastD 0 = (t' :: rest').getLastD 0 := by
            rw [List.getLastD_cons]
            exact getLastD_irrel rest' t' t 0
          rw [hlast]

theorem checkRecovery_map_url (now : ℚ) (s : ProxyPool) :
    (ProxyPool.checkRecovery now s).proxies.map Proxy.url = s.proxies.map Proxy.url := by
  simp only [ProxyPool.checkRecovery]
  rw [List.map_map]
  apply List.map_congr_left
  intro p _
  simp only [Function.comp_apply]
  split_ifs <;> rfl

theorem checkRecovery_length (now : ℚ) (s : ProxyPool) :
    (ProxyPool.checkRecovery now s).proxies.length = s.proxies.length := by
  simp [ProxyPool.checkRecovery]

/-- An entry still inside its cooldown window (or enabled) is untouched by
recovery. -/
theorem proxyAt_checkRecovery_frozen (now : ℚ) (s : ProxyPool) (p : Nat)
    (hp : p < s.proxies.length)
    (hcool : now < (proxyAt s p).disabledUntil) :
    proxyAt (ProxyPool.checkRecovery now s) p = proxyAt s p := by
  simp only [proxyAt] at hcool ⊢
  rw [List.getD_eq_getElem _ _ hp] at hcool
  simp only [ProxyPool.checkRecovery]
  rw [List.getD_eq_getElem _ _ (by simpa using hp), List.getElem_map,
    List.getD_eq_getElem _ _ hp]
  split_ifs with h
  · exfalso
    simp only [Bool.and_eq_true, decide_eq_true_eq] at h
    exact absurd h.2 (not_le.mpr hcool)
  · rfl

/-- A disabled entry whose cooldown has lapsed is re-enabled with a zeroed
consecutive-failure counter. -/
theorem proxyAt_checkRecovery_recovered (now : ℚ) (s : ProxyPool) (p : Nat)
    (hp : p < s.proxies.length)
    (hdis : (proxyAt s p).enabled = false)
    (hc : (proxyAt s p).disabledUntil ≤ now) :
    proxyAt (ProxyPool.checkRecovery now s) p =
      { proxyAt s p with enabled := true, consecutiveFailures := 0 } := by
  simp only [proxyAt] at hdis hc ⊢
  rw [List.getD_eq_getElem _ _ hp] at hdis hc
  simp only [ProxyPool.checkRecovery]
  rw [List.getD_eq_getElem _ _ (by simpa using hp), List.getElem_map,
    List.getD_eq_getElem _ _ hp]
  first
    | rfl
    | rw [if_pos (by simp [hdis, hc])]

theorem foldl_min_mem (rest : List (Nat × Proxy)) (b : Nat × Proxy) :
    rest.foldl
        (fun best q => if decide (q.2.lastUsed < best.2.lastUsed) then q else best)
        b ∈ b :: rest := by
  induction rest generalizing b with
  | nil => simp
  | cons q m ih =>
      simp only [List.foldl_cons]
      have hmem := ih (if decide (q.2.lastUsed < b.2.lastUsed) then q else b)
      rcases List.mem_cons.mp hmem with heq | htl
      · rw [heq]
        split_ifs
        · exact List.mem_cons_of_mem _ (List.mem_cons_self _ _)
        · exact List.mem_cons_self _ _
      · exact List.mem_cons_of_mem _ (List.mem_cons_of_mem _ htl)

theorem minByLastUsed_mem (l : List (Nat × Proxy)) (hne : l ≠ []) :
    ProxyPool.minByLastUsed l ∈ l := by
  cases l with
  | nil => exact absurd rfl hne
  | cons a rest =>
      simp only [ProxyPool.minByLastUsed, List.headD, List.tail]
      exact foldl_min_mem rest a

/-- Core of a `get_proxy` selection step: whichever enabled entry is chosen,
a disabled entry `p` is neither returned nor modified, and the URL sequence
is preserved. -/
theorem getProxy_sel_core (s₁ : ProxyPool) (p : Nat) (ip : Nat × Proxy)
    (now : ℚ) (rr : Nat)
    (hnodup : (s₁.proxies.map Proxy.url).Nodup)
    (hp : p < s₁.proxies.length)
    (hdis : (proxyAt s₁ p).enabled = false)
    (hip : ip ∈ s₁.proxies.enum.filter (fun ip => ip.2.enabled)) :
    ({ ip.2 with lastUsed := now, totalRequests := ip.2.totalRequests + 1 } :
        Proxy).url ≠ (proxyAt s₁ p).url ∧
    proxyAt { s₁ with
        proxies := s₁.proxies.set ip.1
          { ip.2 with lastUsed := now, totalRequests := ip.2.totalRequests + 1 }
        rrIndex := rr } p = proxyAt s₁ p ∧
    (s₁.proxies.set ip.1
        { ip.2 with lastUsed := now, totalRequests := ip.2.totalRequests + 1 }).map
      Proxy.url = s₁.proxies.map Proxy.url := by
  obtain ⟨hmem, hen⟩ := List.mem_filter.mp hip
  obtain ⟨i, q⟩ := ip
  obtain ⟨hi0, hilen, hval⟩ := List.mem_enumFrom hmem
  simp only at hen hval hilen ⊢
  have hilt : i < s₁.proxies.length := by omega
  have hqat : q = proxyAt s₁ i := by
    rw [hval, proxyAt, List.getD_eq_getElem _ _ hilt]
    simp
  have hne : i ≠ p := by
    intro hip'
    rw [hqat, hip'] at hen
    rw [hdis] at hen
    cases hen
  constructor
  · show q.url ≠ (proxyAt s₁ p).url
    rw [hqat]
    exact url_ne_of_nodup hnodup hp hilt hne
  constructor
  · simp only [proxyAt]
    exact getD_set_other _ _ _ hne _ _
  · apply map_url_set
    rw [hqat]
    simp [proxyAt]

/-- A disabled entry strictly inside its cooldown window is not selected by
`get_proxy` (under any strategy) and is left untouched; the pool's URL
sequence and configuration are preserved. -/
theorem getProxy_disabled_step (rand : Nat) (now : ℚ) (s : ProxyPool) (p : Nat)
    (hnodup : (s.proxies.map Proxy.url).Nodup)
    (hp : p < s.proxies.length)
    (hdis : (proxyAt s p).enabled = false)
    (hcool : now < (proxyAt s p).disabledUntil) :
    (∀ pr : Proxy, (ProxyPool.getProxy rand now s).1 = some pr →
        pr.url ≠ (proxyAt s p).url) ∧
    proxyAt (ProxyPool.getProxy rand now s).2 p = proxyAt s p ∧
    (ProxyPool.getProxy rand now s).2.proxies.map Proxy.url =
      s.proxies.map Proxy.url ∧
    (ProxyPool.getProxy rand now s).2.proxies.length = s.proxies.length ∧
    (ProxyPool.getProxy rand now s).2.maxFailures = s.maxFailures ∧
    (ProxyPool.getProxy rand now s).2.cooldown = s.cooldown := by
  have hmap₁ := checkRecovery_map_url now s
  have hlen₁ := checkRecovery_length now s
  have hat₁ := proxyAt_checkRecovery_frozen now s p hp hcool
  simp only [ProxyPool.getProxy]
  set s₁ := ProxyPool.checkRecovery now s with hs₁
  have hp₁ : p < s₁.proxies.length := by rw [hlen₁]; exact hp
  have hdis₁ : (proxyAt s₁ p).enabled = false := by rw [hat₁]; exact hdis
  have hnodup₁ : (s₁.proxies.map Proxy.url).Nodup := by rw [hmap₁]; exact hnodup
  have hcfgm : s₁.maxFailures = s.maxFailures := by rw [hs₁]; rfl
  have hcfgc : s₁.cooldown = s.cooldown := by rw [hs₁]; rfl
  split_ifs with h0
  · refine ⟨?_, hat₁, hmap₁, hlen₁, hcfgm, hcfgc⟩
    intro pr hpr
    simp at hpr
  · have hlenpos : 0 < (s₁.proxies.enum.filter fun ip => ip.2.enabled).length :=
      Nat.pos_of_ne_zero h0
    have hne : s₁.proxies.enum.filter (fun ip => ip.2.enabled) ≠ [] := by
      intro hnil
      rw [hnil] at hlenpos
      cases hlenpos
    cases hstrat : s₁.strategy with
    | roundRobin =>
        simp only [hstrat]
        have hmem : (s₁.proxies.enum.filter fun ip => ip.2.enabled).getD
            (s₁.rrIndex % (s₁.proxies.enum.filter fun ip => ip.2.enabled).length)
            (0, mkProxy "") ∈ s₁.proxies.enum.filter fun ip => ip.2.enabled := by
          rw [List.getD_eq_getElem _ _ (Nat.mod_lt _ hlenpos)]
          exact List.getElem_mem _
        have hc := getProxy_sel_core s₁ p _ now
          ((s₁.rrIndex + 1) % (s₁.proxies.enum.filter fun ip => ip.2.enabled).length)
          hnodup₁ hp₁ hdis₁ hmem
        refine ⟨?_, hc.2.1.trans hat₁, hc.2.2.trans hmap₁, ?_, hcfgm, hcfgc⟩
        · intro pr hpr
          rw [← Option.some_inj.mp hpr, ← hat₁]
          exact hc.1
        · show (s₁.proxies.set _ _).length = s.proxies.length
          rw [List.length_set]
          exact hlen₁
    | random =>
        simp only [hstrat]
        have hmem : (s₁.proxies.enum.filter fun ip => ip.2.enabled).getD
            (rand % (s₁.proxies.enum.filter fun ip => ip.2.enabled).length)
            (0, mkProxy "") ∈ s₁.proxies.enum.filter fun ip => ip.2.enabled := by
          rw [List.getD_eq_getElem _ _ (Nat.mod_lt _ hlenpos)]
          exact List.getElem_mem _
        have hc := getProxy_sel_core s₁ p _ now s₁.rrIndex hnodup₁ hp₁ hdis₁ hmem
        refine ⟨?_, hc.2.1.trans hat₁, hc.2.2.trans hmap₁, ?_, hcfgm, hcfgc⟩
        · intro pr hpr
          rw [← Option.some_inj.mp hpr, ← hat₁]
          exact hc.1
        · show (s₁.proxies.set _ _).length = s.proxies.length
          rw [List.length_set]
          exact hlen₁
    | leastUsed =>
        simp only [hstrat]
        have hmem := minByLastUsed_mem
          (s₁.proxies.enum.filter fun ip => ip.2.enabled) hne
        have hc := getProxy_sel_core s₁ p _ now s₁.rrIndex hnodup₁ hp₁ hdis₁ hmem
        refine ⟨?_, hc.2.1.trans hat₁, hc.2.2.trans hmap₁, ?_, hcfgm, hcfgc⟩
        · intro pr hpr
          rw [← Option.some_inj.mp hpr, ← hat₁]
          exact hc.1
        · show (s₁.proxies.set _ _).length = s.proxies.length
          rw [List.length_set]
          exact hlen₁

/-- A selected pair is a valid position/value pair of the pool. -/
theorem sel_entry_val (s₁ : ProxyPool) (ip : Nat × Proxy)
    (hip : ip ∈ s₁.proxies.enum.filter (fun ip => ip.2.enabled)) :
    ip.1 < s₁.proxies.length ∧ ip.2 = proxyAt s₁ ip.1 := by
  obtain ⟨hmem, _⟩ := List.mem_filter.mp hip
  obtain ⟨i, q⟩ := ip
  obtain ⟨hi0, hilen, hval⟩ := List.mem_enumFrom hmem
  simp only at hval hilen ⊢
  have hilt : i < s₁.proxies.length := by omega
  refine ⟨hilt, ?_⟩
  rw [hval, proxyAt, List.getD_eq_getElem _ _ hilt]
  simp

/-- Stamping the selected entry does not change any entry's `enabled` flag or
consecutive-failure counter. -/
theorem proxyAt_after_set_stamp (s₁ : ProxyPool) (p : Nat) (ip : Nat × Proxy)
    (now : ℚ) (rr : Nat) (hp₁ : p < s₁.proxies.length)
    (hip : ip ∈ s₁.proxies.enum.filter (fun ip => ip.2.enabled)) :
    (proxyAt { s₁ with
        proxies := s₁.proxies.set ip.1
          { ip.2 with lastUsed := now, totalRequests := ip.2.totalRequests + 1 }
        rrIndex := rr } p).enabled = (proxyAt s₁ p).enabled ∧
    (proxyAt { s₁ with
        proxies := s₁.proxies.set ip.1
          { ip.2 with lastUsed := now, totalRequests := ip.2.totalRequests + 1 }
        rrIndex := rr } p).consecutiveFailures =
      (proxyAt s₁ p).consecutiveFailures := by
  obtain ⟨hlt, hval⟩ := sel_entry_val s₁ ip hip
  by_cases hip' : ip.1 = p
  · subst hip'
    simp only [proxyAt]
    rw [getD_set_self _ _ hlt _ _, hval]
    exact ⟨rfl, rfl⟩
  · simp only [proxyAt]
    rw [getD_set_other _ _ _ hip' _ _]
    exact ⟨rfl, rfl⟩

/-- A `get_proxy` call at or after the disabled entry's cooldown expiry
observes the entry re-enabled with a zeroed consecutive-failure counter. -/
theorem getProxy_recovery_step (rand : Nat) (now : ℚ) (s : ProxyPool) (p : Nat)
    (hp : p < s.proxies.length)
    (hdis : (proxyAt s p).enabled = false)
    (hexp : (proxyAt s p).disabledUntil ≤ now) :
    (proxyAt (ProxyPool.getProxy rand now s).2 p).enabled = true ∧
    (proxyAt (ProxyPool.getProxy rand now s).2 p).consecutiveFailures = 0 := by
  have hlen₁ := checkRecovery_length now s
  have hat₁ := proxyAt_checkRecovery_recovered now s p hp hdis hexp
  simp only [ProxyPool.getProxy]
  set s₁ := ProxyPool.checkRecovery now s with hs₁
  have hp₁ : p < s₁.proxies.length := by rw [hlen₁]; exact hp
  have hen₁ : (proxyAt s₁ p).enabled = true := by rw [hat₁]
  have hcf₁ : (proxyAt s₁ p).consecutiveFailures = 0 := by rw [hat₁]
  split_ifs with h0
  · exact ⟨hen₁, hcf₁⟩
  · have hlenpos : 0 < (s₁.proxies.enum.filter fun ip => ip.2.enabled).length :=
      Nat.pos_of_ne_zero h0
    have hne : s₁.proxies.enum.filter (fun ip => ip.2.enabled) ≠ [] := by
      intro hnil
      rw [hnil] at hlenpos
      cases hlenpos
    cases hstrat : s₁.strategy with
    | roundRobin =>
        simp only [hstrat]
        have hmem : (s₁.proxies.enum.filter fun ip => ip.2.enabled).getD
            (s₁.rrIndex % (s₁.proxies.enum.filter fun ip => ip.2.enabled).length)
            (0, mkProxy "") ∈ s₁.proxies.enum.filter fun ip => ip.2.enabled := by
          rw [List.getD_eq_getElem _ _ (Nat.mod_lt _ hlenpos)]
          exact List.getElem_mem _
        have hc := proxyAt_after_set_stamp s₁ p _ now
          ((s₁.rrIndex + 1) % (s₁.proxies.enum.filter fun ip => ip.2.enabled).length)
          hp₁ hmem
        exact ⟨hc.1.trans hen₁, hc.2.trans hcf₁⟩
    | random =>
        simp only [hstrat]
        have hmem : (s₁.proxies.enum.filter fun ip => ip.2.enabled).getD
            (rand % (s₁.proxies.enum.filter fun ip => ip.2.enabled).length)
            (0, mkProxy "") ∈ s₁.proxies.enum.filter fun ip => ip.2.enabled := by
          rw [List.getD_eq_getElem _ _ (Nat.mod_lt _ hlenpos)]
          exact List.getElem_mem _
        have hc := proxyAt_after_set_stamp s₁ p _ now s₁.rrIndex hp₁ hmem
        exact ⟨hc.1.trans hen₁, hc.2.trans hcf₁⟩
    | leastUsed =>
        simp only [hstrat]
        have hmem := minByLastUsed_mem
          (s₁.proxies.enum.filter fun ip => ip.2.enabled) hne
        have hc := proxyAt_after_set_stamp s₁ p _ now s₁.rrIndex hp₁ hmem
        exact ⟨hc.1.trans hen₁, hc.2.trans hcf₁⟩

/-- While a disabled entry's cooldown has not lapsed, any sequence of
`get_proxy` calls leaves it untouched and never returns its URL. -/
theorem runGetProxy_disabled : ∀ (times : List ℚ) (s : ProxyPool) (p : Nat),
    (s.proxies.map Proxy.url).Nodup → p < s.proxies.length →
    (proxyAt s p).enabled = false →
    (∀ t ∈ times, t < (proxyAt s p).disabledUntil) →
    (∀ o ∈ (runGetProxy times s).1, ∀ pr : Proxy, o = some pr →
        pr.url ≠ (proxyAt s p).url) ∧
    proxyAt (runGetProxy times s).2 p = proxyAt s p ∧
    (runGetProxy times s).2.proxies.map Proxy.url = s.proxies.map Proxy.url ∧
    (runGetProxy times s).2.proxies.length = s.proxies.length ∧
    (runGetProxy times s).2.maxFailures = s.maxFailures ∧
    (runGetProxy times s).2.cooldown = s.cooldown := by
  intro times
  induction times with
  | nil =>
      intro s p _ _ _ _
      exact ⟨fun o ho => absurd ho (List.not_mem_nil o), rfl, rfl, rfl, rfl, rfl⟩
  | cons t rest ih =>
      intro s p hnodup hp hdis htimes
      have hstep := getProxy_disabled_step 0 t s p hnodup hp hdis
        (htimes t (List.mem_cons_self _ _))
      obtain ⟨hout, hat, hmap, hlen, hm, hc⟩ := hstep
      have hih := ih (ProxyPool.getProxy 0 t s).2 p (hmap ▸ hnodup) (hlen ▸ hp)
        (by rw [hat]; exact hdis)
        (by
          intro t' ht'
          rw [hat]
          exact htimes t' (List.mem_cons_of_mem _ ht'))
      obtain ⟨hout', hat', hmap', hlen', hm', hc'⟩ := hih
      simp only [runGetProxy]
      refine ⟨?_, hat'.trans hat, hmap'.trans hmap, hlen'.trans hlen,
        hm'.trans hm, hc'.trans hc⟩
      intro o ho pr hpr
      rcases List.mem_cons.mp ho with rfl | htl
      · exact hout pr hpr
      · have := hout' o htl pr hpr
        rw [hat] at this
        exact this

/-- C6: starting from a pool with distinct proxy URLs in which entry `P` (at
position `p`, with URL `u`) is enabled with a zeroed consecutive-failure
counter, `K = max_failures` consecutive `report_failure(u)` calls (no
intervening success) disable `P` with `disabled_until = t_K + T` where `t_K`
is the time of the `K`-th failure and `T` the cooldown; every `get_proxy`
call made strictly before `t_K + T` neither returns `P`'s URL nor modifies
`P`; and the first `get_proxy` call made at or after `t_K + T` observes `P`
enabled with its consecutive-failure counter reset to `0`. -/
theorem proxy_failure_cooldown_recovery (s : ProxyPool) (u : String) (p : Nat)
    (ts qs : List ℚ) (tNow : ℚ)
    (hnodup : (s.proxies.map Proxy.url).Nodup)
    (hp : p < s.proxies.length)
    (hurl : (proxyAt s p).url = u)
    (hen : (proxyAt s p).enabled = true)
    (hc0 : (proxyAt s p).consecutiveFailures = 0)
    (hne : ts ≠ [])
    (hK : ts.length = s.maxFailures)
    (hqs : ∀ q ∈ qs, q < ts.getLastD 0 + s.cooldown)
    (hnow : ts.getLastD 0 + s.cooldown ≤ tNow) :
    (proxyAt (applyFailures u ts s) p).enabled = false ∧
    (proxyAt (applyFailures u ts s) p).disabledUntil =
      ts.getLastD 0 + s.cooldown ∧
    (∀ o ∈ (runGetProxy qs (applyFailures u ts s)).1, ∀ pr : Proxy,
        o = some pr → pr.url ≠ u) ∧
    (proxyAt (ProxyPool.getProxy 0 tNow
        (runGetProxy qs (applyFailures u ts s)).2).2 p).enabled = true ∧
    (proxyAt (ProxyPool.getProxy 0 tNow
        (runGetProxy qs (applyFailures u ts s)).2).2 p).consecutiveFailures = 0 := by
  have hspec := applyFailures_spec ts s u p hnodup hp hurl hen hne
    (by rw [hc0]; simpa using hK)
  obtain ⟨hm, hc, hmap, hu, hd, hcf, hdu⟩ := hspec
  have hnodup₂ : ((applyFailures u ts s).proxies.map Proxy.url).Nodup :=
    hmap ▸ hnodup
  have hp₂ : p < (applyFailures u ts s).proxies.length := by
    have := congrArg List.length hmap
    simp only [List.length_map] at this
    rw [this]
    exact hp
  have hrun := runGetProxy_disabled qs (applyFailures u ts s) p hnodup₂ hp₂ hd
    (by
      intro q hq
      rw [hdu]
      exact hqs q hq)
  obtain ⟨hout, hat, hmapr, hlenr, _, _⟩ := hrun
  refine ⟨hd, hdu, ?_, ?_, ?_⟩
  · intro o ho pr hpr
    have := hout o ho pr hpr
    rw [hu] at this
    exact this
  · have := getProxy_recovery_step 0 tNow (runGetProxy qs (applyFailures u ts s)).2 p
      (hlenr ▸ hp₂) (by rw [hat]; exact hd) (by rw [hat, hdu]; exact hnow)
    exact this.1
  · have := getProxy_recovery_step 0 tNow (runGetProxy qs (applyFailures u ts s)).2 p
      (hlenr ▸ hp₂) (by rw [hat]; exact hd) (by rw [hat, hdu]; exact hnow)
    exact this.2

/-- Witness for `proxy_failure_cooldown_recovery`: a one-proxy pool with
`max_failures = 1` and `cooldown = 10`; one failure at time 0, an excluded
`get_proxy` at time 5, and recovery at time 10. -/
theorem proxy_failure_cooldown_recovery_witness :
    (proxyAt (applyFailures "http://p1:8080" [0]
        { strategy := .roundRobin, maxFailures := 1, cooldown := 10, rrIndex := 0
          proxies := [mkProxy "http://p1:8080"] }) 0).enabled = false ∧
    (proxyAt (applyFailures "http://p1:8080" [0]
        { strategy := .roundRobin, maxFailures := 1, cooldown := 10, rrIndex := 0
          proxies := [mkProxy "http://p1:8080"] }) 0).disabledUntil =
      [(0:ℚ)].getLastD 0 + 10 ∧
    (∀ o ∈ (runGetProxy [5] (applyFailures "http://p1:8080" [0]
        { strategy := .roundRobin, maxFailures := 1, cooldown := 10, rrIndex := 0
          proxies := [mkProxy "http://p1:8080"] })).1, ∀ pr : Proxy,
        o = some pr → pr.url ≠ "http://p1:8080") ∧
    (proxyAt (ProxyPool.getProxy 0 10
        (runGetProxy [5] (applyFailures "http://p1:8080" [0]
          { strategy := .roundRobin, maxFailures := 1, cooldown := 10, rrIndex := 0
            proxies := [mkProxy "http://p1:8080"] })).2).2 0).enabled = true ∧
    (proxyAt (ProxyPool.getProxy 0 10
        (runGetProxy [5] (applyFailures "http://p1:8080" [0]
          { strategy := .roundRobin, maxFailures := 1, cooldown := 10, rrIndex := 0
            proxies := [mkProxy "http://p1:8080"] })).2).2 0).consecutiveFailures = 0 :=
  proxy_failure_cooldown_recovery
    { strategy := .roundRobin, maxFailures := 1, cooldown := 10, rrIndex := 0
      proxies := [mkProxy "http://p1:8080"] }
    "http://p1:8080" 0 [0] [5] 10
    (by decide) (by decide) (by decide) (by decide) (by decide) (by decide)
    (by decide)
    (by
      intro q hq
      simp only [List.mem_singleton] at hq
      subst hq
      norm_num)
    (by norm_num)

/-! ## Proxy health (`_proxy/models.py`, class `ProxyHealth`) -/

/-- `ProxyHealth`: per-proxy health bookkeeping of the proxy manager. -/
structure ProxyHealth where
  proxyId : String
  consecutiveFailures : Nat := 0
  totalRequests : Nat := 0
  totalFailures : Nat := 0
  lastSuccess : Option ℚ := none
  lastFailure : Option ℚ := none
  lastError : Option String := none
  avgResponseTime : ℚ := 0
  isHealthy : Bool := true
  cooldownUntil : Option ℚ := none
  responseTimes : List ℚ := []
  deriving Repr, DecidableEq

namespace ProxyHealth

/-- `ProxyHealth.record_success`: zero the consecutive failures, mark
healthy, clear the cooldown, and update the rolling average over the last
10 response times. -/
def recordSuccess (now rt : ℚ) (h : ProxyHealth) : ProxyHealth :=
  let h := { h with
    totalRequests := h.totalRequests + 1
    consecutiveFailures := 0
    lastSuccess := some now
    isHealthy := true
    cooldownUntil := none }
  let rts := h.responseTimes ++ [rt]
  let rts := if 10 < rts.length then rts.drop 1 else rts
  { h with responseTimes := rts, avgResponseTime := rts.sum / (rts.length : ℚ) }

/-- `ProxyHealth.record_failure`: bump counters, record the error, and mark
unhealthy with a cooldown once `max_failures` consecutive failures are
reached. -/
def recordFailure (now : ℚ) (error : String) (maxFailures : Nat)
    (cooldownSeconds : ℚ) (h : ProxyHealth) : ProxyHealth :=
  let h := { h with
    totalRequests := h.totalRequests + 1
    totalFailures := h.totalFailures + 1
    consecutiveFailures := h.consecutiveFailures + 1
    lastFailure := some now
    lastError := some error }
  if maxFailures ≤ h.consecutiveFailures then
    { h with isHealthy := false, cooldownUntil := some (now + cooldownSeconds) }
  else h

end ProxyHealth

/-- The entry returned by `updateFirst` at any position is the original entry
or its image under the update. -/
theorem updateFirst_getD_cases {α : Type} (sel : α → Bool) (f : α → α) :
    ∀ (l : List α) (i : Nat) (d : α),
      (updateFirst sel f l).getD i d = l.getD i d ∨
        (updateFirst sel f l).getD i d = f (l.getD i d) := by
  intro l
  induction l with
  | nil => intro i d; left; rfl
  | cons a rest ih =>
      intro i d
      simp only [updateFirst]
      by_cases hsel : sel a
      · rw [if_pos hsel]
        cases i with
        | zero => right; rw [List.getD_cons_zero, List.getD_cons_zero]
        | succ j => left; rw [List.getD_cons_succ, List.getD_cons_succ]
      · rw [if_neg hsel]
        cases i with
        | zero => left; rw [List.getD_cons_zero, List.getD_cons_zero]
        | succ j =>
            rw [List.getD_cons_succ, List.getD_cons_succ]
            exact ih j d

/-- C3, counterexample: in `ProxyPool`, a success does not clear a disabled
entry's cooldown.  With `max_failures = 1` and `cooldown = 100`, one failure
at time 0 disables the only proxy until time 100; a subsequent
`report_success` zeroes the consecutive-failure counter but leaves the entry
disabled with `disabled_until = 100`, and `get_proxy` at time 1 still
returns nothing — the entry is not usable again after the success. -/
theorem reportSuccess_claim_counterexample :
    (proxyAt (ProxyPool.reportSuccess "http://p:1"
        (ProxyPool.reportFailure 0 "http://p:1"
          { strategy := .roundRobin, maxFailures := 1, cooldown := 100, rrIndex := 0
            proxies := [mkProxy "http://p:1"] })) 0).consecutiveFailures = 0 ∧
    (proxyAt (ProxyPool.reportSuccess "http://p:1"
        (ProxyPool.reportFailure 0 "http://p:1"
          { strategy := .roundRobin, maxFailures := 1, cooldown := 100, rrIndex := 0
            proxies := [mkProxy "http://p:1"] })) 0).enabled = false ∧
    (proxyAt (ProxyPool.reportSuccess "http://p:1"
        (ProxyPool.reportFailure 0 "http://p:1"
          { strategy := .roundRobin, maxFailures := 1, cooldown := 100, rrIndex := 0
            proxies := [mkProxy "http://p:1"] })) 0).disabledUntil = 100 ∧
    (ProxyPool.getProxy 0 1 (ProxyPool.reportSuccess "http://p:1"
        (ProxyPool.reportFailure 0 "http://p:1"
          { strategy := .roundRobin, maxFailures := 1, cooldown := 100, rrIndex := 0
            proxies := [mkProxy "http://p:1"] }))).1 = none := by
  refine ⟨?_, ?_, ?_, ?_⟩ <;>
    norm_num [ProxyPool.reportFailure, ProxyPool.reportSuccess,
      ProxyPool.failUpdate, updateFirst, proxyAt, mkProxy, ProxyPool.getProxy,
      ProxyPool.checkRecovery, List.enum, List.enumFrom, List.getD]

/-- The pool used to witness C3: one proxy, disabled until time 100 after a
failure. -/
def c3Pool : ProxyPool :=
  { strategy := .roundRobin, maxFailures := 1, cooldown := 100, rrIndex := 0
    proxies := [{ mkProxy "http://p:1" with
      enabled := false, disabledUntil := 100, consecutiveFailures := 1 }] }

/-- C3 (amended): `ProxyHealth.record_success` (`_proxy/models.py`) resets the
consecutive-failure counter to 0, marks the entry healthy and clears
`cooldown_until`; but `ProxyPool.report_success` — the method the pool
exposes — only zeroes the consecutive-failure counter of the first entry
with the reported URL and changes nothing else: the pool becomes exactly the
old pool with that entry's counter set to 0, so the entry keeps its `url`,
`enabled` flag and `disabled_until`, every other entry is untouched, and a
disabled entry remains excluded from every `get_proxy` strictly before its
`disabled_until` even after the success. -/
theorem reportSuccess_effects (s : ProxyPool) (u : String) (p : Nat)
    (hnodup : (s.proxies.map Proxy.url).Nodup)
    (hp : p < s.proxies.length)
    (hurl : (proxyAt s p).url = u) :
    (∀ (h : ProxyHealth) (now rt : ℚ),
      (ProxyHealth.recordSuccess now rt h).consecutiveFailures = 0 ∧
      (ProxyHealth.recordSuccess now rt h).isHealthy = true ∧
      (ProxyHealth.recordSuccess now rt h).cooldownUntil = none) ∧
    ProxyPool.reportSuccess u s =
      { s with proxies :=
          s.proxies.set p { proxyAt s p with consecutiveFailures := 0 } } ∧
    (proxyAt (ProxyPool.reportSuccess u s) p).consecutiveFailures = 0 ∧
    (proxyAt (ProxyPool.reportSuccess u s) p).enabled = (proxyAt s p).enabled ∧
    (proxyAt (ProxyPool.reportSuccess u s) p).disabledUntil =
      (proxyAt s p).disabledUntil ∧
    (proxyAt (ProxyPool.reportSuccess u s) p).url = (proxyAt s p).url ∧
    (∀ j, j ≠ p → proxyAt (ProxyPool.reportSuccess u s) j = proxyAt s j) ∧
    (∀ (rand : Nat) (now : ℚ),
      (proxyAt s p).enabled = false →
      now < (proxyAt s p).disabledUntil →
      ∀ pr : Proxy,
        (ProxyPool.getProxy rand now (ProxyPool.reportSuccess u s)).1 = some pr →
          pr.url ≠ (proxyAt s p).url) := by
  have hset : ProxyPool.reportSuccess u s =
      { s with proxies :=
          s.proxies.set p { proxyAt s p with consecutiveFailures := 0 } } := by
    simp only [ProxyPool.reportSuccess]
    congr 1
    apply updateFirst_eq_set _ _ _ p (mkProxy "") hp
    · simp only [proxyAt] at hurl
      simp only [beq_iff_eq]
      exact hurl
    · intro j hj
      have hne := url_ne_of_nodup hnodup hp (lt_trans hj hp) (by omega)
      simp only [proxyAt] at hurl
      simp only [beq_eq_false_iff_ne, ne_eq]
      rw [← hurl]
      exact hne
  have hat : proxyAt (ProxyPool.reportSuccess u s) p =
      { proxyAt s p with consecutiveFailures := 0 } := by
    rw [hset]
    simp only [proxyAt]
    exact getD_set_self _ _ hp _ _
  have hother : ∀ j, j ≠ p →
      proxyAt (ProxyPool.reportSuccess u s) j = proxyAt s j := by
    intro j hj
    rw [hset]
    simp only [proxyAt]
    exact getD_set_other _ _ _ (fun hpj => hj hpj.symm) _ _
  refine ⟨fun h now rt => ⟨rfl, rfl, rfl⟩, hset, ?_, ?_, ?_, ?_, hother, ?_⟩
  · rw [hat]
  · rw [hat]
  · rw [hat]
  · rw [hat]
  · intro rand now hdis hcool pr hpr
    have hnodup2 : ((ProxyPool.reportSuccess u s).proxies.map Proxy.url).Nodup := by
      rw [hset]
      show ((s.proxies.set p _).map Proxy.url).Nodup
      rw [map_url_set s.proxies p
        { proxyAt s p with consecutiveFailures := 0 } rfl]
      exact hnodup
    have hp2 : p < (ProxyPool.reportSuccess u s).proxies.length := by
      rw [hset]
      simpa using hp
    have hdis2 : (proxyAt (ProxyPool.reportSuccess u s) p).enabled = false := by
      rw [hat]
      exact hdis
    have hcool2 : now < (proxyAt (ProxyPool.reportSuccess u s) p).disabledUntil := by
      rw [hat]
      exact hcool
    have hstep := getProxy_disabled_step rand now (ProxyPool.reportSuccess u s) p
      hnodup2 hp2 hdis2 hcool2
    have hne := hstep.1 pr hpr
    rw [hat] at hne
    exact hne

theorem reportSuccess_effects_witness :
    ((c3Pool.proxies.map Proxy.url).Nodup ∧ 0 < c3Pool.proxies.length ∧
      (proxyAt c3Pool 0).url = "http://p:1") ∧
    ((∀ (h : ProxyHealth) (now rt : ℚ),
      (ProxyHealth.recordSuccess now rt h).consecutiveFailures = 0 ∧
      (ProxyHealth.recordSuccess now rt h).isHealthy = true ∧
      (ProxyHealth.recordSuccess now rt h).cooldownUntil = none) ∧
    ProxyPool.reportSuccess "http://p:1" c3Pool =
      { c3Pool with proxies :=
          c3Pool.proxies.set 0 { proxyAt c3Pool 0 with consecutiveFailures := 0 } } ∧
    (proxyAt (ProxyPool.reportSuccess "http://p:1" c3Pool) 0).consecutiveFailures
      = 0 ∧
    (proxyAt (ProxyPool.reportSuccess "http://p:1" c3Pool) 0).enabled =
      (proxyAt c3Pool 0).enabled ∧
    (proxyAt (ProxyPool.reportSuccess "http://p:1" c3Pool) 0).disabledUntil =
      (proxyAt c3Pool 0).disabledUntil ∧
    (proxyAt (ProxyPool.reportSuccess "http://p:1" c3Pool) 0).url =
      (proxyAt c3Pool 0).url ∧
    (∀ j, j ≠ 0 →
      proxyAt (ProxyPool.reportSuccess "http://p:1" c3Pool) j = proxyAt c3Pool j) ∧
    (∀ (rand : Nat) (now : ℚ),
      (proxyAt c3Pool 0).enabled = false →
      now < (proxyAt c3Pool 0).disabledUntil →
      ∀ pr : Proxy,
        (ProxyPool.getProxy rand now
            (ProxyPool.reportSuccess "http://p:1" c3Pool)).1 = some pr →
          pr.url ≠ (proxyAt c3Pool 0).url)) :=
  ⟨⟨by simp [c3Pool], by decide, rfl⟩,
    reportSuccess_effects c3Pool "http://p:1" 0 (by simp [c3Pool]) (by decide) rfl⟩

/-! ## Response, errors and the retry engine
(`models.py`, `handler.py HTTPHandler._execute_with_retry`,
`backends/async_backend.py AsyncBackend._execute_with_retry`) -/

/-- The slice of `Response` the retry engine and client flow inspect. -/
structure Response where
  statusCode : Nat
  cookies : List (String × String) := []
  url : String := ""
  deriving Repr, DecidableEq

/-- `TransportError` (the carried cause is the message string). -/
structure TransportError where
  message : String
  deriving Repr, DecidableEq

/-- How `_execute_with_retry` terminates: a returned response, the final
`TransportError` re-raised bare, or the `MaxRetriesExceeded` constructed
after the loop. -/
inductive RetryOutcome where
  | response (r : Response)
  | transportRaised (e : TransportError)
  | maxRetriesExceeded (url : String) (attempts : Nat) (lastError : Option TransportError)
  deriving Repr, DecidableEq

/-- The observable trace of one `_execute_with_retry` call: how it
terminated, how many transport invocations it made, and the backoff sleeps
it performed, in order. -/
structure RetryResult where
  outcome : RetryOutcome
  attempts : Nat
  sleeps : List ℚ
  deriving Repr, DecidableEq

/-- The `for attempt in range(max_retries + 1)` loop of
`_execute_with_retry`.  `remaining` counts the loop iterations left;
`transport` gives each attempt's outcome.  On a retryable status or a
`TransportError` before the last attempt the engine sleeps
`backoff_base ^ attempt` and continues; a `TransportError` on the last
attempt is re-raised as is (`raise`); falling out of the loop would build
`MaxRetriesExceeded(url, max_retries + 1, last_error)`. -/
def executeWithRetryGo (transport : Nat → Except TransportError Response)
    (url : String) (maxRetries : Nat) (retryCodes : List Nat) (base : ℚ) :
    Nat → Nat → Option TransportError → Nat → List ℚ → RetryResult
  | 0, _, lastError, attempts, sleeps =>
      ⟨.maxRetriesExceeded url (maxRetries + 1) lastError, attempts, sleeps⟩
  | remaining + 1, attempt, lastError, attempts, sleeps =>
      match transport attempt with
      | .ok r =>
          if r.statusCode ∈ retryCodes then
            if attempt < maxRetries then
              executeWithRetryGo transport url maxRetries retryCodes base
                remaining (attempt + 1) lastError (attempts + 1)
                (sleeps ++ [base ^ attempt])
            else ⟨.response r, attempts + 1, sleeps⟩
          else ⟨.response r, attempts + 1, sleeps⟩
      | .error e =>
          if attempt < maxRetries then
            executeWithRetryGo transport url maxRetries retryCodes base
              remaining (attempt + 1) (some e) (attempts + 1)
              (sleeps ++ [base ^ attempt])
          else ⟨.transportRaised e, attempts + 1, sleeps⟩

/-- `_execute_with_retry`. -/
def executeWithRetry (transport : Nat → Except TransportError Response)
    (url : String) (maxRetries : Nat) (retryCodes : List Nat) (base : ℚ) :
    RetryResult :=
  executeWithRetryGo transport url maxRetries retryCodes base
    (maxRetries + 1) 0 none 0 []

theorem executeWithRetryGo_allFail (f : Nat → TransportError) (url : String)
    (maxRetries : Nat) (retryCodes : List Nat) (base : ℚ) :
    ∀ (remaining attempt : Nat) (lastError : Option TransportError)
      (attempts : Nat) (sleeps : List ℚ),
      attempt + remaining = maxRetries + 1 → 0 < remaining →
      executeWithRetryGo (fun i => .error (f i)) url maxRetries retryCodes base
          remaining attempt lastError attempts sleeps =
        ⟨.transportRaised (f maxRetries), attempts + remaining,
          sleeps ++ (List.range' attempt (remaining - 1)).map (fun i => base ^ i)⟩ := by
  intro remaining
  induction remaining with
  | zero =>
      intro attempt lastError attempts sleeps hsum hpos
      exact absurd hpos (lt_irrefl 0)
  | succ r ih =>
      intro attempt lastError attempts sleeps hsum _
      simp only [executeWithRetryGo]
      cases r with
      | zero =>
          have hatt : attempt = maxRetries := by omega
          rw [if_neg (by omega)]
          simp [List.range', hatt]
      | succ r' =>
          have hlt : attempt < maxRetries := by omega
          rw [if_pos hlt]
          rw [ih (attempt + 1) (some (f attempt)) (attempts + 1)
            (sleeps ++ [base ^ attempt]) (by omega) (by omega)]
          have hrange : List.range' attempt (r' + 1) =
              attempt :: List.range' (attempt + 1) r' := List.range'_succ attempt r' 1
          simp only [Nat.succ_sub_one, hrange, List.map_cons, List.append_assoc,
            List.singleton_append]
          have harith : attempts + 1 + (r' + 1) = attempts + (r' + 1 + 1) := by omega
          rw [harith]

/-- C1: with a transport that raises `TransportError` on every attempt and
`N` retries configured, `_execute_with_retry` performs exactly `N + 1`
transport attempts, sleeping `B^attempt` between consecutive attempts
(`attempt = 0 … N−1`), and then terminates by re-raising the final
`TransportError` bare — not by raising `MaxRetriesExceeded`: the
`MaxRetriesExceeded(url, N + 1, last_error)` construction after the loop is
unreachable on this path, although the claim (and the function's own
docstring) promise it. -/
theorem retry_allFail_behavior (f : Nat → TransportError) (url : String)
    (maxRetries : Nat) (retryCodes : List Nat) (base : ℚ) :
    executeWithRetry (fun i => .error (f i)) url maxRetries retryCodes base =
      ⟨.transportRaised (f maxRetries), maxRetries + 1,
        (List.range maxRetries).map (fun i => base ^ i)⟩ := by
  rw [executeWithRetry,
    executeWithRetryGo_allFail f url maxRetries retryCodes base
      (maxRetries + 1) 0 none 0 [] (by omega) (by omega)]
  simp [List.range_eq_range']

/-! ## Batch executor (`backends/async_backend.py AsyncBackend.gather_async`,
`models.py BatchResult`) -/

/-- `BatchResult`: the preallocated per-index response slots and the
index-keyed error dict. -/
structure BatchResult (ε : Type) where
  responses : List (Option Response)
  errors : List (Nat × ε)

/-- The per-task writes of `gather_async` (without `stop_on_error`, every
task runs): task `i` either stores its response in slot `i` or records its
exception under key `i`.  The tasks write disjoint slots/keys, so the
concurrent completion order does not affect the final arrays; the fold
processes them in input order.  `outcomes i` is the result `execute_async`
produces for request `i`. -/
def gatherGo {ε : Type} : Nat → List (Except ε Response) → BatchResult ε →
    BatchResult ε
  | _, [], acc => acc
  | i, o :: rest, acc =>
      gatherGo (i + 1) rest
        (match o with
         | .ok r => { acc with responses := acc.responses.set i (some r) }
         | .error e => { acc with errors := acc.errors ++ [(i, e)] })

/-- `gather_async`: responses preallocated as `[None] * len(requests)`,
errors empty. -/
def gatherAsync {ε : Type} (outcomes : List (Except ε Response)) : BatchResult ε :=
  gatherGo 0 outcomes ⟨List.replicate outcomes.length none, []⟩

/-- The error entries contributed by the tasks, in input order. -/
def errsFrom {ε : Type} : Nat → List (Except ε Response) → List (Nat × ε)
  | _, [] => []
  | i, o :: rest =>
      (match o with
       | .error e => [(i, e)]
       | .ok _ => []) ++ errsFrom (i + 1) rest

theorem gatherGo_errors {ε : Type} :
    ∀ (rest : List (Except ε Response)) (i : Nat) (acc : BatchResult ε),
      (gatherGo i rest acc).errors = acc.errors ++ errsFrom i rest := by
  intro rest
  induction rest with
  | nil => intro i acc; simp [gatherGo, errsFrom]
  | cons o rest' ih =>
      intro i acc
      cases o with
      | ok r => simp [gatherGo, errsFrom, ih]
      | error e => simp [gatherGo, errsFrom, ih]

theorem lookupAssoc_errsFrom {ε : Type} :
    ∀ (rest : List (Except ε Response)) (i j : Nat),
      lookupAssoc (errsFrom i rest) j =
        (if i ≤ j then
          match rest.get? (j - i) with
          | some (.error e) => some e
          | _ => none
        else none) := by
  intro rest
  induction rest with
  | nil =>
      intro i j
      simp only [errsFrom, lookupAssoc]
      split_ifs <;> simp
  | cons o rest' ih =>
      intro i j
      by_cases hij : i = j
      · subst hij
        cases o with
        | ok r =>
            simp only [errsFrom, List.append_eq, List.nil_append]
            rw [ih (i + 1) i]
            rw [if_neg (by omega), if_pos (le_refl i)]
            simp
        | error e =>
            simp only [errsFrom, List.singleton_append, lookupAssoc,
              if_pos rfl, if_pos (le_refl i)]
            simp
      · cases o with
        | ok r =>
            simp only [errsFrom, List.append_eq, List.nil_append]
            rw [ih (i + 1) j]
            by_cases hle : i ≤ j
            · have hlt : i + 1 ≤ j := by omega
              rw [if_pos hlt, if_pos hle]
              have : j - i = (j - (i + 1)) + 1 := by omega
              rw [this, List.get?_cons_succ]
            · rw [if_neg (by omega), if_neg hle]
        | error e =>
            simp only [errsFrom, List.singleton_append, lookupAssoc,
              if_neg hij, List.append_eq, List.nil_append]
            rw [ih (i + 1) j]
            by_cases hle : i ≤ j
            · have hlt : i + 1 ≤ j := by omega
              rw [if_pos hlt, if_pos hle]
              have : j - i = (j - (i + 1)) + 1 := by omega
              rw [this, List.get?_cons_succ]
            · rw [if_neg (by omega), if_neg hle]

theorem gatherGo_responses {ε : Type} :
    ∀ (rest : List (Except ε Response)) (i : Nat) (acc : BatchResult ε) (j : Nat),
      acc.responses.length = i + rest.length →
      (∀ k, i ≤ k → k < i + rest.length → acc.responses[k]? = some none) →
      (gatherGo i rest acc).responses[j]? =
        (if i ≤ j ∧ j < i + rest.length then
          (rest[j - i]?).map Except.toOption
        else acc.responses[j]?) := by
  intro rest
  induction rest with
  | nil =>
      intro i acc j _ _
      simp only [gatherGo, List.length_nil]
      rw [if_neg (by omega)]
  | cons o rest' ih =>
      intro i acc j hlen hwin
      simp only [List.length_cons] at hlen hwin ⊢
      have hilen : i < acc.responses.length := by omega
      cases o with
      | ok r =>
          simp only [gatherGo]
          have hlen' : (acc.responses.set i (some r)).length = (i + 1) + rest'.length := by
            simp only [List.length_set]
            omega
          have hwin' : ∀ k, i + 1 ≤ k → k < (i + 1) + rest'.length →
              (acc.responses.set i (some r))[k]? = some none := by
            intro k hk1 hk2
            rw [List.getElem?_set, if_neg (by omega)]
            exact hwin k (by omega) (by omega)
          rw [ih (i + 1) _ j hlen' hwin']
          rcases Nat.lt_trichotomy j i with hj | hj | hj
          · have hc1 : ¬ ((i + 1 ≤ j) ∧ j < (i + 1) + rest'.length) := by omega
            have hc2 : ¬ ((i ≤ j) ∧ j < i + (rest'.length + 1)) := by omega
            rw [if_neg hc1, if_neg hc2]
            rw [List.getElem?_set, if_neg (by omega)]
          · subst hj
            have hc1 : ¬ ((j + 1 ≤ j) ∧ j < (j + 1) + rest'.length) := by omega
            have hc2 : (j ≤ j) ∧ j < j + (rest'.length + 1) := by omega
            rw [if_neg hc1, if_pos hc2]
            rw [List.getElem?_set, if_pos rfl, if_pos hilen]
            simp only [Nat.sub_self, List.getElem?_cons_zero, Option.map_some]
            rfl
          · by_cases hj2 : j < (i + 1) + rest'.length
            · have hc1 : (i + 1 ≤ j) ∧ j < (i + 1) + rest'.length := by omega
              have hc2 : (i ≤ j) ∧ j < i + (rest'.length + 1) := by omega
              rw [if_pos hc1, if_pos hc2]
              have hsub : j - i = (j - (i + 1)) + 1 := by omega
              rw [hsub, List.getElem?_cons_succ]
            · have hc1 : ¬ ((i + 1 ≤ j) ∧ j < (i + 1) + rest'.length) := by omega
              have hc2 : ¬ ((i ≤ j) ∧ j < i + (rest'.length + 1)) := by omega
              rw [if_neg hc1, if_neg hc2]
              rw [List.getElem?_set, if_neg (by omega)]
      | error e =>
          simp only [gatherGo]
          have hlen' : (({ acc with errors := acc.errors ++ [(i, e)] } :
              BatchResult ε)).responses.length = (i + 1) + rest'.length := by
            simp only []
            omega
          have hwin' : ∀ k, i + 1 ≤ k → k < (i + 1) + rest'.length →
              (({ acc with errors := acc.errors ++ [(i, e)] } :
                BatchResult ε)).responses[k]? = some none := by
            intro k hk1 hk2
            exact hwin k (by omega) (by omega)
          rw [ih (i + 1) _ j hlen' hwin']
          rcases Nat.lt_trichotomy j i with hj | hj | hj
          · have hc1 : ¬ ((i + 1 ≤ j) ∧ j < (i + 1) + rest'.length) := by omega
            have hc2 : ¬ ((i ≤ j) ∧ j < i + (rest'.length + 1)) := by omega
            rw [if_neg hc1, if_neg hc2]
          · subst hj
            have hc1 : ¬ ((j + 1 ≤ j) ∧ j < (j + 1) + rest'.length) := by omega
            have hc2 : (j ≤ j) ∧ j < j + (rest'.length + 1) := by omega
            rw [if_neg hc1, if_pos hc2]
            have := hwin j (le_refl j) (by omega)
            rw [this]
            simp only [Nat.sub_self, List.getElem?_cons_zero, Option.map_some]
            rfl
          · by_cases hj2 : j < (i + 1) + rest'.length
            · have hc1 : (i + 1 ≤ j) ∧ j < (i + 1) + rest'.length := by omega
              have hc2 : (i ≤ j) ∧ j < i + (rest'.length + 1) := by omega
              rw [if_pos hc1, if_pos hc2]
              have hsub : j - i = (j - (i + 1)) + 1 := by omega
              rw [hsub, List.getElem?_cons_succ]
            · have hc1 : ¬ ((i + 1 ≤ j) ∧ j < (i + 1) + rest'.length) := by omega
              have hc2 : ¬ ((i ≤ j) ∧ j < i + (rest'.length + 1)) := by omega
              rw [if_neg hc1, if_neg hc2]

/-- C7: for every input sequence, `gather_async` returns a `BatchResult`
whose `responses` list has the same length as the input; the entry at index
`i` is the response produced for the `i`-th request (and `None` when that
request failed); and every per-request exception is captured in `errors`
under its input index — looked up by index, `errors` holds exactly the
exceptions of the failing outcomes — with nothing propagated out of the
call (it is a total function into `BatchResult`). -/
theorem gather_properties {ε : Type} (outcomes : List (Except ε Response)) :
    (gatherAsync outcomes).responses.length = outcomes.length ∧
    (∀ j : Nat, (gatherAsync outcomes).responses[j]? =
        (outcomes[j]?).map Except.toOption) ∧
    (∀ j : Nat, lookupAssoc (gatherAsync outcomes).errors j =
        (match outcomes[j]? with
         | some (.error e) => some e
         | _ => none)) := by
  refine ⟨?_, ?_, ?_⟩
  · have : ∀ (rest : List (Except ε Response)) (i : Nat) (acc : BatchResult ε),
        (gatherGo i rest acc).responses.length = acc.responses.length := by
      intro rest
      induction rest with
      | nil => intro i acc; rfl
      | cons o rest' ih =>
          intro i acc
          cases o with
          | ok r => simp [gatherGo, ih]
          | error e => simp [gatherGo, ih]
    rw [gatherAsync, this]
    simp
  · intro j
    rw [gatherAsync, gatherGo_responses outcomes 0 _ j (by simp)
      (by
        intro k _ hk
        simp only [List.getElem?_replicate]
        rw [if_pos (by simpa using hk)])]
    by_cases hj : j < outcomes.length
    · rw [if_pos (by constructor <;> omega)]
      simp
    · rw [if_neg (by omega)]
      rw [List.getElem?_replicate, if_neg (by simpa using hj)]
      rw [List.getElem?_eq_none (by omega)]
      rfl
  · intro j
    rw [gatherAsync, gatherGo_errors]
    simp only [List.nil_append]
    rw [lookupAssoc_errsFrom]
    rw [if_pos (Nat.zero_le j)]
    simp only [List.nil_append, Nat.sub_zero]
    rw [List.get?_eq_getElem?]

/-! ## `HTTPClient.request` error path (`client.py`): the cookie store and
`_last_response` on backend failure -/

/-- The client state observed by C9: `HTTPClient._cookie_store` and
`HTTPClient._last_response` (`client.py`).  The proxy manager's health
counters are outside this slice. -/
structure ClientState where
  cookieStore : CookieStore
  lastResponse : Option Response
  deriving Repr, DecidableEq

/-- `HTTPClient._prepare_cookies`: the stored cookies applicable to the URL
(via `get_for_url`, whose only store mutation is the expiry sweep),
overridden by the per-request cookies.  Returns the merged dict together
with the swept store. -/
def prepareCookies (now : ℚ) (url : String) (reqCookies : List (String × String))
    (st : CookieStore) : List (String × String) × CookieStore :=
  let p := getForUrl now url st
  (reqCookies.foldl (fun acc nv => dictInsert acc nv.1 nv.2) p.1, p.2)

/-- `HTTPClient.request`, cookie/last-response slice: prepare the cookies
(this sweeps expired entries), run the backend; on success store the
response cookies (`_store_cookies` writes only when the dict is non-empty)
and set `_last_response`; on any exception the bare `raise` re-raises before
the `_store_cookies` and `_last_response` lines are reached. -/
def clientRequest {ε : Type} (now : ℚ) (url : String)
    (reqCookies : List (String × String))
    (backendResult : List (String × String) → Except ε Response)
    (s : ClientState) : Except ε Response × ClientState :=
  let pc := prepareCookies now url reqCookies s.cookieStore
  match backendResult pc.1 with
  | .error e => (.error e, { s with cookieStore := pc.2 })
  | .ok r =>
      (.ok r,
        { cookieStore :=
            if r.cookies.isEmpty then pc.2
            else updateFromResponse url r.cookies pc.2,
          lastResponse := some r })

theorem isExpired_mono (now now' : ℚ) (h : now ≤ now') (c : Cookie) :
    c.isExpired now' = false → c.isExpired now = false := by
  cases hx : c.expires with
  | none => intro _; simp [Cookie.isExpired, hx]
  | some t =>
      simp only [Cookie.isExpired, hx, decide_eq_false_iff_not, not_lt]
      intro h2
      linarith

theorem filter_unexpired_twice (now now' : ℚ) (h : now ≤ now')
    (l : List (String × Cookie)) :
    (l.filter (fun nc => !(nc.2.isExpired now))).filter
        (fun nc => !(nc.2.isExpired now')) =
      l.filter (fun nc => !(nc.2.isExpired now')) := by
  rw [List.filter_filter]
  apply List.filter_congr
  intro nc _
  cases hx : nc.2.isExpired now' with
  | true => simp [hx]
  | false => simp [hx, isExpired_mono now now' h nc.2 hx]

theorem cleanupExpired_cons (now : ℚ) (dc : String × List (String × Cookie))
    (rest : CookieStore) :
    cleanupExpired now (dc :: rest) =
      (if (dc.2.filter (fun nc => !(nc.2.isExpired now))).isEmpty then
        cleanupExpired now rest
      else (dc.1, dc.2.filter (fun nc => !(nc.2.isExpired now))) ::
        cleanupExpired now rest) := by
  by_cases hx : (dc.2.filter (fun nc => !(nc.2.isExpired now))).isEmpty = true
  · simp [cleanupExpired, List.filter_cons, hx]
  · simp [cleanupExpired, List.filter_cons, hx]

/-- Sweeping at `now` and then again at a later `now'` is the same as one
sweep at `now'`: the first sweep removes only cookies the second would also
remove, and buckets it empties would be emptied again. -/
theorem cleanup_cleanup (now now' : ℚ) (h : now ≤ now') :
    ∀ st : CookieStore,
      cleanupExpired now' (cleanupExpired now st) = cleanupExpired now' st := by
  intro st
  induction st with
  | nil => rfl
  | cons dc rest ih =>
      have hff := filter_unexpired_twice now now' h dc.2
      rw [cleanupExpired_cons now dc rest]
      by_cases h1 : (dc.2.filter (fun nc => !(nc.2.isExpired now))).isEmpty = true
      · rw [if_pos h1, ih, cleanupExpired_cons now' dc rest]
        have hsub : dc.2.filter (fun nc => !(nc.2.isExpired now')) = [] := by
          rw [List.isEmpty_iff] at h1
          rw [← hff, h1]
          rfl
        rw [if_pos (by rw [hsub]; rfl)]
      · rw [if_neg h1]
        rw [cleanupExpired_cons now' (dc.1, dc.2.filter (fun nc => !(nc.2.isExpired now)))
          (cleanupExpired now rest)]
        rw [cleanupExpired_cons now' dc rest]
        simp only [hff, ih]

/-- C9: when the backend raises, `HTTPClient.request` re-raises the
exception and no response cookies are written to the cookie store and
`_last_response` keeps its previous value: the resulting store is exactly
the expiry sweep of the prior store (the sweep runs during cookie
preparation, before the request is attempted), so every `get_for_url` at any
time from `now` on returns the same cookies on the posterior store as on the
prior one. -/
theorem client_request_error_state {ε : Type} (now : ℚ) (url : String)
    (reqCookies : List (String × String))
    (backendResult : List (String × String) → Except ε Response)
    (s : ClientState) (e : ε)
    (hfail : backendResult (prepareCookies now url reqCookies s.cookieStore).1 =
      .error e) :
    clientRequest now url reqCookies backendResult s =
      (.error e, ⟨cleanupExpired now s.cookieStore, s.lastResponse⟩) ∧
    (∀ now', now ≤ now' → ∀ url',
      (getForUrl now' url'
          (clientRequest now url reqCookies backendResult s).2.cookieStore).1 =
        (getForUrl now' url' s.cookieStore).1) := by
  have hstep : clientRequest now url reqCookies backendResult s =
      (.error e,
        { s with cookieStore := (prepareCookies now url reqCookies s.cookieStore).2 }) := by
    simp only [clientRequest, hfail]
  have hp2 : (prepareCookies now url reqCookies s.cookieStore).2 =
      cleanupExpired now s.cookieStore := rfl
  constructor
  · rw [hstep, hp2]
  · intro now' hle url'
    rw [hstep]
    simp only [getForUrl, getForUrlParts, hp2]
    rw [cleanup_cleanup now now' hle]

theorem client_request_error_state_witness :
    ((fun _ : List (String × String) => (Except.error () : Except Unit Response))
        (prepareCookies 0 "http://a.com/" [] ([] : CookieStore)).1 =
      Except.error ()) ∧
    (clientRequest 0 "http://a.com/" []
        (fun _ => (Except.error () : Except Unit Response)) ⟨[], none⟩ =
      (Except.error (), ⟨cleanupExpired 0 [], none⟩) ∧
     (∀ now', (0 : ℚ) ≤ now' → ∀ url',
        (getForUrl now' url'
            (clientRequest 0 "http://a.com/" []
              (fun _ => (Except.error () : Except Unit Response))
              ⟨[], none⟩).2.cookieStore).1 =
          (getForUrl now' url' ([] : CookieStore)).1)) :=
  ⟨rfl, client_request_error_state 0 "http://a.com/" []
    (fun _ => (Except.error () : Except Unit Response)) ⟨[], none⟩ () rfl⟩

end HttpClient
